import Mathlib

/-!
Verification of the AsciiDoc compiler core (`asciidoc.py`) against its
natural-language specification.

The development shallowly embeds the relevant parts of `asciidoc.py`:

* the attribute substitution pass `subs_attrs` (simple references,
  conditional references, the undefined-reference line-drop test and the
  system-attribute pass),
* the passthrough extraction/restoration machinery of `Macros`,
* `Config.subs_specialchars`,
* the PSV table body parser `Table.parse_psv_dsv` / `Table.parse_rows`,
* the include-processing reader `Reader1`,
* the error-reporting protocol (`error`, `AbstractBlock.error`, the
  exception handler of the `asciidoc` driver),
* section numbering (`Title.getnumber`), section id generation
  (`Section.gen_id`) and the callout map (`CalloutMap`).

Strings are modelled as `List Char`.  Python regular-expression scans are
embedded as explicit left-to-right scanners that are equivalent to the
specific patterns used by the source (each equivalence is argued in a
comment next to the definition).  External collaborators (the host regex
engine for user-supplied patterns, the filesystem, shell commands) are
modelled as oracle parameters.
-/

/-! ### Basic character and string utilities -/

/-- Python's `\w` (word character), restricted to its ASCII part: letters,
digits and underscore.  The source compiles its patterns with `(?u)`, but
none of the properties verified here depend on non-ASCII word characters. -/
def wordChar (c : Char) : Bool :=
  c.isAlpha || c.isDigit || c = '_'

/-- A character of the tail of an attribute name: the source charset `[-\w]`. -/
def nameChar (c : Char) : Bool :=
  wordChar c || c = '-'

/-- The attribute-name grammar of `subs_attrs`: one `[^\W\d]`-free... precisely,
the source name pattern is `[^\\\W][-\w]*`: a word character followed by word
characters or hyphens. -/
def validNameB (x : List Char) : Bool :=
  match x with
  | [] => false
  | c :: cs => wordChar c && cs.all nameChar

/-- Maximal run of name characters (models the greedy/lazy `[-\w]*?` runs of
the source patterns, which are always followed by a literal that is not a
name character, so lazy and greedy matching coincide). -/
def spanName : List Char → (List Char × List Char)
  | [] => ([], [])
  | c :: rest =>
    if nameChar c then
      let r := spanName rest
      (c :: r.1, r.2)
    else ([], c :: rest)

theorem spanName_append (a b : List Char) (ha : ∀ c ∈ a, nameChar c = true)
    (hb : ∀ c, b.head? = some c → nameChar c = false) :
    spanName (a ++ b) = (a, b) := by
  induction a with
  | nil =>
    cases b with
    | nil => rfl
    | cons c rest =>
      simp only [List.nil_append, spanName]
      rw [hb c rfl]
      simp
  | cons c cs ih =>
    simp only [List.cons_append, spanName]
    rw [ha c (by simp)]
    simp only [if_true]
    have := ih (fun d hd => ha d (by simp [hd]))
    rw [show cs.append b = cs ++ b from rfl, this]

theorem spanName_eq (t a b : List Char) (h : spanName t = (a, b)) :
    t = a ++ b := by
  induction t generalizing a b with
  | nil =>
    simp [spanName] at h
    simp [h.1, h.2]
  | cons c rest ih =>
    simp only [spanName] at h
    by_cases hc : nameChar c
    · rw [if_pos hc] at h
      obtain ⟨h1, h2⟩ := Prod.mk.injEq .. ▸ h
      cases a with
      | nil => simp at h1
      | cons a0 as =>
        simp at h1
        obtain ⟨rfl, h1⟩ := h1
        simp [← ih as b (by rw [← h1, ← h2])]
    · rw [if_neg hc] at h
      obtain ⟨h1, h2⟩ := Prod.mk.injEq .. ▸ h
      simp [← h1, ← h2]

/-- `str.replace(pat, sub)`: replace every non-overlapping occurrence,
scanning left to right. -/
def replaceAll (pat sub : List Char) : List Char → List Char
  | [] => []
  | c :: rest =>
    if pat ≠ [] ∧ pat.isPrefixOf (c :: rest) then
      sub ++ replaceAll pat sub ((c :: rest).drop pat.length)
    else
      c :: replaceAll pat sub rest
termination_by l => l.length
decreasing_by
  · simp only [List.length_drop]
    rename_i h
    have : 1 ≤ pat.length := by
      cases pat with
      | nil => exact absurd rfl h.1
      | cons p ps => simp
    simp only [List.length_cons]
    omega
  · simp

/-- `str.replace(pat, sub, 1)`: replace the first occurrence only. -/
def replaceFirst (pat sub : List Char) : List Char → List Char
  | [] => []
  | c :: rest =>
    if pat.isPrefixOf (c :: rest) then
      sub ++ (c :: rest).drop pat.length
    else
      c :: replaceFirst pat sub rest

/-- Decimal rendering of a natural number; models Python's `'%d' % n` and
`str(n)` for non-negative values. -/
def digitChar : Nat → Char
  | 0 => '0' | 1 => '1' | 2 => '2' | 3 => '3' | 4 => '4'
  | 5 => '5' | 6 => '6' | 7 => '7' | 8 => '8' | 9 => '9'
  | _ => '*'

def natDec (n : Nat) : List Char :=
  if h : n < 10 then [digitChar n]
  else natDec (n / 10) ++ [digitChar (n % 10)]
termination_by n
decreasing_by
  exact Nat.div_lt_self (by omega) (by omega)

/-- Numeric value of a digit list (helper used to prove `natDec` injective). -/
def decVal (ds : List Char) : Nat :=
  ds.foldl (fun a c => a * 10 + (c.toNat - 48)) 0

theorem decVal_append (a : List Char) (c : Char) :
    decVal (a ++ [c]) = decVal a * 10 + (c.toNat - 48) := by
  simp [decVal, List.foldl_append]

theorem digitChar_toNat (n : Nat) (h : n < 10) : (digitChar n).toNat - 48 = n := by
  interval_cases n <;> decide

theorem decVal_natDec (n : Nat) : decVal (natDec n) = n := by
  induction n using Nat.strong_induction_on with
  | _ n ih =>
    rw [natDec]
    by_cases h : n < 10
    · rw [dif_pos h]
      have := digitChar_toNat n h
      simp [decVal, this]
    · rw [dif_neg h]
      rw [decVal_append, ih (n / 10) (Nat.div_lt_self (by omega) (by omega))]
      rw [digitChar_toNat (n % 10) (Nat.mod_lt _ (by omega))]
      omega

theorem natDec_inj {m n : Nat} (h : natDec m = natDec n) : m = n := by
  have := congrArg decVal h
  rwa [decVal_natDec, decVal_natDec] at this

theorem digitChar_isDigit (n : Nat) (h : n < 10) : (digitChar n).isDigit = true := by
  interval_cases n <;> decide

theorem natDec_all_digits (n : Nat) : ∀ c ∈ natDec n, c.isDigit = true := by
  induction n using Nat.strong_induction_on with
  | _ n ih =>
    rw [natDec]
    by_cases h : n < 10
    · rw [dif_pos h]
      intro c hc
      simp at hc
      rw [hc]
      exact digitChar_isDigit n h
    · rw [dif_neg h]
      intro c hc
      simp at hc
      rcases hc with hc | hc
      · exact ih (n / 10) (Nat.div_lt_self (by omega) (by omega)) c hc
      · rw [hc]
        exact digitChar_isDigit (n % 10) (Nat.mod_lt _ (by omega))

/-! ### `subs_attrs` (asciidoc.py lines 719-896)

The attribute substitution pass.  A line is processed in this order:
escape normalization (`\{` becomes `{\`, `\}` becomes `}\`), the simple
reference pass, the conditional reference pass, the undefined-reference
drop test, the system attribute pass, and unescaping.  Each regex loop
advances `pos` to `mo.start() + len(s)` after a substitution (so the
substituted text is never rescanned by the same pass) or to `mo.end()`
after a skipped undefined simple reference; both are embedded below as
left-to-right scanners over the unprocessed suffix. -/

/-- The attribute map: `document.attributes`.  An absent key is an
undefined attribute (the source's `attrs.get(name) is None`). -/
abbrev Attrs := List (String × String)

/-- `text.replace('\\{','{\\').replace('\\}','}\\')` (lines 777-778). -/
def escapeNorm (t : List Char) : List Char :=
  replaceAll ['\\', '}'] ['}', '\\'] (replaceAll ['\\', '{'] ['{', '\\'] t)

/-- `text.replace('{\\','{').replace('}\\','}')` (lines 884-885). -/
def unescapeNorm (t : List Char) : List Char :=
  replaceAll ['}', '\\'] ['}'] (replaceAll ['{', '\\'] ['{'] t)

/-- Match of the simple-reference pattern
`\{(?P<name>[^\\\W][-\w]*?)\}(?!\\)` at the head of `t`: an opening brace,
a name (word character then name characters; the lazy run is followed by a
literal `}` which is not a name character, so it takes the maximal run), a
closing brace whose following character is not a backslash.  Returns the
name and the text after the closing brace. -/
def simpleRefAt (t : List Char) : Option (List Char × List Char) :=
  match t with
  | a :: c :: rest =>
    if a = '{' ∧ wordChar c then
      if (spanName rest).2.head? = some '}' ∧
          (spanName rest).2.tail.head? ≠ some '\\' then
        some (c :: (spanName rest).1, (spanName rest).2.tail)
      else none
    else none
  | _ => none

theorem simpleRefAt_eq (t nm after : List Char)
    (h : simpleRefAt t = some (nm, after)) :
    t = '{' :: nm ++ '}' :: after := by
  match t with
  | [] => exact absurd h (by simp [simpleRefAt])
  | [a] => exact absurd h (by simp [simpleRefAt])
  | a :: c :: rest =>
    simp only [simpleRefAt] at h
    by_cases hw : a = '{' ∧ wordChar c
    · rw [if_pos hw] at h
      rcases hs : spanName rest with ⟨run, tail⟩
      rw [hs] at h
      have he := spanName_eq rest run tail hs
      by_cases hb : tail.head? = some '}' ∧ tail.tail.head? ≠ some '\\'
      · rw [if_pos hb] at h
        simp at h
        obtain ⟨h1, h2⟩ := h
        have hc := List.cons_head?_tail hb.1
        rw [hw.1, he, ← h1, ← h2]
        simp only [List.cons_append, List.cons.injEq, true_and]
        conv_lhs => rw [← hc]
      · rw [if_neg hb] at h; exact absurd h (by simp)
    · rw [if_neg hw] at h; exact absurd h (by simp)

theorem simpleRefAt_length (t nm after : List Char)
    (h : simpleRefAt t = some (nm, after)) : after.length < t.length := by
  have := simpleRefAt_eq t nm after h
  subst this
  simp
  omega

/-- The simple-reference expansion loop (lines 780-794).  A defined
reference is replaced by its value and scanning resumes after the value
(`pos = mo.start() + len(s)`); an undefined reference is left in place and
scanning resumes after it (`pos = mo.end()`). -/
def simpleScan (attrs : Attrs) : List Char → List Char
  | [] => []
  | c :: rest =>
    match h : simpleRefAt (c :: rest) with
    | some (nm, after) =>
      match attrs.lookup (String.mk nm) with
      | some v => v.data ++ simpleScan attrs after
      | none => '{' :: nm ++ '}' :: simpleScan attrs after
    | none => c :: simpleScan attrs rest
termination_by l => l.length
decreasing_by
  all_goals first
    | exact simpleRefAt_length _ _ _ h
    | simp

/-- The undefined-reference drop test (line 857):
`re.search(r'(?su)\{[^\\\W][-\w]*?\}(?!\\)', text)`; true iff the
simple-reference pattern matches anywhere in `t`. -/
def findSimpleRefB : List Char → Bool
  | [] => false
  | c :: rest => (simpleRefAt (c :: rest)).isSome || findSimpleRefB rest

/-- One brace-count update of `end_brace` (lines 736-741): a brace whose
following character is a backslash is an escaped brace (after escape
normalization) and is not counted; the brace in the last position of the
text is always counted. -/
def endBraceCount (full : List Char) (c : Char) (result : Nat) (n : Int) : Int :=
  if result = full.length - 1 ∨ full.get? (result + 1) ≠ some '\\' then
    (if c = '{' then n + 1 else if c = '}' then n - 1 else n)
  else n

/-- The loop of `end_brace` (lines 731-744): starting at the brace that
opens a reference, scan `full` counting unescaped braces and return the
index just past the brace that balances the opening one (or the end of the
text when the braces never balance).  `cs` is the suffix of `full` from
the current index `result`; `n` is the running count. -/
def endBraceLoop (full : List Char) : List Char → Nat → Int → Nat
  | [], result, _ => result
  | c :: cs, result, n =>
    if endBraceCount full c result n = 0 then result + 1
    else endBraceLoop full cs (result + 1) (endBraceCount full c result n)

/-- `end_brace(text, start)` where the caller guarantees
`text[start] == '{'` (the source asserts it). -/
def endBraceIdx (t : List Char) (start : Nat) : Nat :=
  endBraceLoop t (t.drop start) start 0

theorem endBraceLoop_ge (full cs : List Char) (result : Nat) (n : Int) :
    result ≤ endBraceLoop full cs result n := by
  induction cs generalizing result n with
  | nil => simp [endBraceLoop]
  | cons c cs ih =>
    rw [endBraceLoop]
    by_cases h0 : endBraceCount full c result n = 0
    · rw [if_pos h0]; omega
    · rw [if_neg h0]
      exact le_trans (by omega) (ih (result + 1) _)

theorem endBraceCount_no_brace (full : List Char) (c : Char) (result : Nat)
    (n : Int) (h1 : c ≠ '{') (h2 : c ≠ '}') :
    endBraceCount full c result n = n := by
  simp [endBraceCount, h1, h2]

/-- Walking over characters that are not braces neither changes the count
nor stops the loop (when the count is nonzero). -/
theorem endBraceLoop_no_brace (full a cs : List Char) (result : Nat) (n : Int)
    (ha : ∀ c ∈ a, c ≠ '{' ∧ c ≠ '}') (hn : n ≠ 0) :
    endBraceLoop full (a ++ cs) result n =
      endBraceLoop full cs (result + a.length) n := by
  induction a generalizing result with
  | nil => simp
  | cons c a ih =>
    rw [List.cons_append, endBraceLoop,
      endBraceCount_no_brace full c result n (ha c (by simp)).1 (ha c (by simp)).2,
      if_neg hn, ih (result + 1) (fun d hd => ha d (by simp [hd]))]
    congr 1
    simp
    omega

/-- Split `t` at the first `}` that is not followed by a backslash: the
lazy `(?P<expr>.*?)\}(?!\\)` of the conditional and system patterns.
Returns the text before the brace and the text after it. -/
def findUnescClose : List Char → Option (List Char × List Char)
  | [] => none
  | c :: rest =>
    if c = '}' ∧ rest.head? ≠ some '\\' then some ([], rest)
    else (findUnescClose rest).map (fun p => (c :: p.1, p.2))

theorem findUnescClose_eq (t b a : List Char) (h : findUnescClose t = some (b, a)) :
    t = b ++ '}' :: a := by
  induction t generalizing b with
  | nil => exact absurd h (by simp [findUnescClose])
  | cons c rest ih =>
    rw [findUnescClose] at h
    by_cases hc : c = '}' ∧ rest.head? ≠ some '\\'
    · rw [if_pos hc] at h
      simp at h
      simp [← h.1, ← h.2, hc.1]
    · rw [if_neg hc] at h
      rcases hfc : findUnescClose rest with _ | ⟨p1, p2⟩
      · rw [hfc] at h; exact absurd h (by simp)
      · rw [hfc] at h
        simp at h
        obtain ⟨h1, h2⟩ := h
        subst h2
        rw [← h1, List.cons_append, ← ih p1 hfc]

theorem findUnescClose_append (v rest : List Char)
    (hv : '}' ∉ v) (hr : rest.head? ≠ some '\\') :
    findUnescClose (v ++ '}' :: rest) = some (v, rest) := by
  induction v with
  | nil => simp [findUnescClose, hr]
  | cons c cs ih =>
    rw [List.cons_append, findUnescClose]
    have hc : ¬(c = '}' ∧ (cs ++ '}' :: rest).head? ≠ some '\\') := by
      intro hh
      exact hv (by simp [hh.1])
    rw [if_neg hc, ih (fun hm => hv (by simp [hm]))]
    rfl

/-- The seven conditional operators (line 797). -/
def condOps : List Char := ['=', '?', '!', '#', '%', '@', '$']

/-- Helper for `condMatchAt`: the part of the conditional match after the
name run has been taken.  `t` is the whole text from the opening brace,
`run` the name tail, `c` the name head; the last argument is the text
following the name run. -/
def condMatchAux (t run : List Char) (c : Char) :
    List Char → Option (List Char × Char × List Char × List Char)
  | op :: t2 =>
    if op ∈ condOps ∧ (findUnescClose t2).isSome then
      some (c :: run, op,
        (t.drop (run.length + 3)).take (endBraceIdx t 0 - 1 - (run.length + 3)),
        t.drop (endBraceIdx t 0))
    else none
  | [] => none

/-- Match of the conditional-reference pattern
`\{(?P<name>[^\\\W][-\w]*?)(?P<op>\=|\?|!|#|%|@|\$)(?P<value>.*?)\}(?!\\)`
at the head of `t`, combined with the `end_brace` computation of the true
extent of the reference (lines 795-808).  The lazy name run is followed by
an operator, which is not a name character, so it is the maximal run; the
lazy value runs to the first `}` not followed by a backslash.  On a match,
the source replaces `text[mo.start():end]` where
`end = end_brace(text, mo.start())` and takes
`rval = text[mo.start('value'):end-1]` (`mo.start('value')` is
`mo.start() + len(name) + 2`, which from the opening brace is index
`len(run) + 3` counting the name head).  Returns
(name, operator, rval, text from `end` on). -/
def condMatchAt (t : List Char) : Option (List Char × Char × List Char × List Char) :=
  match t with
  | a :: c :: rest =>
    if a = '{' ∧ wordChar c then
      condMatchAux t (spanName rest).1 c (spanName rest).2
    else none
  | _ => none

/-- Oracle for the regex-matching conditional operators `@` and `$` with a
defined left value (lines 826-855): their result depends on the host regex
engine applied to the user-supplied pattern in `rval`, so it is a
parameter (arguments: operator, lval, rval). -/
abbrev RegexCondOracle := Char → List Char → List Char → List Char

/-- The replacement text for one conditional reference (lines 809-855).
`lval = attrs.get(name)`; an undefined name takes the first branch.
`'{zzzzz}'` and `'{'+name+'}'` are the drop-line markers the source
inserts so that the subsequent undefined-reference test deletes the
line. -/
def condValue (rc : RegexCondOracle) (attrs : Attrs) (nm : List Char)
    (op : Char) (rval : List Char) : List Char :=
  match attrs.lookup (String.mk nm) with
  | none =>
    if op = '=' then rval
    else if op = '?' then []
    else if op = '!' then rval
    else if op = '#' then '{' :: nm ++ ['}']
    else if op = '%' then rval
    else '{' :: nm ++ ['}']
  | some lval =>
    if op = '=' then lval.data
    else if op = '?' then rval
    else if op = '!' then []
    else if op = '#' then rval
    else if op = '%' then ['{', 'z', 'z', 'z', 'z', 'z', '}']
    else rc op lval.data rval

theorem condMatchAt_after (t nm rval after : List Char) (op : Char)
    (h : condMatchAt t = some (nm, op, rval, after)) :
    after = t.drop (endBraceIdx t 0) ∧ t ≠ [] := by
  match t with
  | [] => exact absurd h (by simp [condMatchAt])
  | [a] => exact absurd h (by simp [condMatchAt])
  | a :: c :: rest =>
    refine ⟨?_, by simp⟩
    simp only [condMatchAt] at h
    by_cases hw : a = '{' ∧ wordChar c
    · rw [if_pos hw] at h
      rcases hs : spanName rest with ⟨run, tail⟩
      rw [show (spanName rest).1 = run from by rw [hs],
        show (spanName rest).2 = tail from by rw [hs]] at h
      match tail, h with
      | [], h => exact absurd h (by simp [condMatchAux])
      | op' :: t2, h =>
        rw [condMatchAux] at h
        by_cases hop : op' ∈ condOps ∧ (findUnescClose t2).isSome
        · rw [if_pos hop] at h
          simp at h
          exact h.2.2.2.symm
        · rw [if_neg hop] at h; exact absurd h (by simp)
    · rw [if_neg hw] at h; exact absurd h (by simp)

theorem endBraceIdx_pos (t : List Char) (h : t ≠ []) : 1 ≤ endBraceIdx t 0 := by
  match t with
  | c :: cs =>
    rw [endBraceIdx, List.drop_zero, endBraceLoop]
    by_cases h0 : endBraceCount (c :: cs) c 0 0 = 0
    · rw [if_pos h0]
    · rw [if_neg h0]
      exact endBraceLoop_ge _ _ _ _

theorem condMatchAt_length (t nm rval after : List Char) (op : Char)
    (h : condMatchAt t = some (nm, op, rval, after)) : after.length < t.length := by
  obtain ⟨ha, hne⟩ := condMatchAt_after t nm rval after op h
  have h1 := endBraceIdx_pos t hne
  have h2 : 1 ≤ t.length := by
    cases t with
    | nil => exact absurd rfl hne
    | cons c cs => simp
  rw [ha, List.length_drop]
  omega

/-- The conditional-reference expansion loop (lines 795-856).  After a
substitution, `pos = mo.start() + len(s)` and the text from `end` on
follows it, so scanning continues after the inserted replacement. -/
def condScan (rc : RegexCondOracle) (attrs : Attrs) : List Char → List Char
  | [] => []
  | c :: rest =>
    match h : condMatchAt (c :: rest) with
    | some (nm, op, rval, after) =>
      condValue rc attrs nm op rval ++ condScan rc attrs after
    | none => c :: condScan rc attrs rest
termination_by l => l.length
decreasing_by
  all_goals first
    | exact condMatchAt_length _ _ _ _ _ h
    | simp

/-- Oracle for `system(action, expr)` (lines 630-718): evaluation of the
`eval:`/`sys:`/`sys2:`/`include:`/`include1:` system attribute actions,
which run host code, shell commands or filesystem reads.  `none` models
the source's `None` result (the line is dropped). -/
abbrev SysOracle := List Char → List Char → Option (List Char)

/-- Helper for `sysRefAt`: the part of the system-attribute match after
the action run has been taken. -/
def sysMatchAux (run : List Char) (c : Char) :
    List Char → Option (List Char × List Char × List Char)
  | b :: t2 =>
    if b = ':' then
      match findUnescClose t2 with
      | some q => some (c :: run, q.1, q.2)
      | none => none
    else none
  | [] => none

/-- Match of the system-attribute pattern
`\{(?P<action>[^\\\W][-\w]*?):(?P<expr>.*?)\}(?!\\)` at the head of `t`
(line 861).  Returns (action, expr, text after the match); the
substitution here uses `mo.end()`, not `end_brace`. -/
def sysRefAt (t : List Char) : Option (List Char × List Char × List Char) :=
  match t with
  | a :: c :: rest =>
    if a = '{' ∧ wordChar c then
      sysMatchAux (spanName rest).1 c (spanName rest).2
    else none
  | _ => none

theorem sysRefAt_eq (t act ex after : List Char)
    (h : sysRefAt t = some (act, ex, after)) :
    t = '{' :: act ++ ':' :: ex ++ '}' :: after := by
  match t with
  | [] => exact absurd h (by simp [sysRefAt])
  | [a] => exact absurd h (by simp [sysRefAt])
  | a :: c :: rest =>
    simp only [sysRefAt] at h
    by_cases hw : a = '{' ∧ wordChar c
    · rw [if_pos hw] at h
      rcases hs : spanName rest with ⟨run, tail⟩
      rw [show (spanName rest).1 = run from by rw [hs],
        show (spanName rest).2 = tail from by rw [hs]] at h
      have he1 := spanName_eq rest run tail hs
      match tail, h, he1 with
      | [], h, he1 => exact absurd h (by simp [sysMatchAux])
      | b :: t2, h, he1 =>
        rw [sysMatchAux] at h
        by_cases hb : b = ':'
        · rw [if_pos hb] at h
          rcases hq : findUnescClose t2 with _ | ⟨e1, a1⟩
          · rw [hq] at h; exact absurd h (by simp)
          · rw [hq] at h
            simp only [Option.some.injEq, Prod.mk.injEq] at h
            obtain ⟨h1, h2, h3⟩ := h
            have he2 := findUnescClose_eq t2 e1 a1 hq
            rw [hw.1, he1, he2, hb, ← h1, ← h2, ← h3]
            simp
        · rw [if_neg hb] at h; exact absurd h (by simp)
    · rw [if_neg hw] at h; exact absurd h (by simp)

theorem sysRefAt_length (t act ex after : List Char)
    (h : sysRefAt t = some (act, ex, after)) : after.length < t.length := by
  have he := sysRefAt_eq t act ex after h
  subst he
  simp
  omega

/-- The system-attribute expansion loop (lines 860-879): each match's
expression is unescaped and passed to `system`; a `None` result stops the
loop and drops the whole line (`skipped = True`), otherwise the result is
spliced in and scanning resumes after it (`pos = mo.start() + len(s)`). -/
def systemScan (sys : SysOracle) : List Char → Option (List Char)
  | [] => some []
  | c :: rest =>
    match h : sysRefAt (c :: rest) with
    | some (act, ex, after) =>
      match sys act (unescapeNorm ex) with
      | none => none
      | some s => (systemScan sys after).map (fun u => s ++ u)
    | none => (systemScan sys rest).map (fun u => c :: u)
termination_by l => l.length
decreasing_by
  all_goals first
    | exact sysRefAt_length _ _ _ _ h
    | simp

/-- `subs_attrs` restricted to one line of the `lines` loop (lines
774-889): escape normalization, the simple pass, the conditional pass,
the undefined-reference drop test, the system pass and unescaping.
`none` means the line is deleted from the output. -/
def subsAttrsLine (sys : SysOracle) (rc : RegexCondOracle) (attrs : Attrs)
    (line : List Char) : Option (List Char) :=
  let t1 := simpleScan attrs (escapeNorm line)
  let t2 := condScan rc attrs t1
  if findSimpleRefB t2 then none
  else
    match systemScan sys t2 with
    | none => none
    | some t3 => some (unescapeNorm t3)

/-- `subs_attrs` on a list of lines (lines 774-896, `dictionary=None`
case): each line is processed independently (the loop iterates in reverse
only so that `del lines[i]` keeps the remaining indices stable) and
dropped lines are removed from the returned tuple. -/
def subs_attrs (sys : SysOracle) (rc : RegexCondOracle) (attrs : Attrs)
    (lines : List (List Char)) : List (List Char) :=
  lines.filterMap (subsAttrsLine sys rc attrs)

/-! ### Lemmas about the `subs_attrs` scanners -/

theorem nameChar_not_special (d : Char) (h : nameChar d = true) :
    d ≠ '{' ∧ d ≠ '}' ∧ d ≠ '\\' := by
  refine ⟨?_, ?_, ?_⟩ <;> rintro rfl <;> revert h <;> decide

theorem wordChar_nameChar (d : Char) (h : wordChar d = true) : nameChar d = true := by
  simp [nameChar, h]

theorem condOps_not_nameChar : ∀ op ∈ condOps, nameChar op = false := by decide

theorem condOps_not_brace : ∀ op ∈ condOps, op ≠ '{' ∧ op ≠ '}' := by decide

theorem findSimpleRefB_cons (c : Char) (rest : List Char) :
    findSimpleRefB (c :: rest) =
      ((simpleRefAt (c :: rest)).isSome || findSimpleRefB rest) := rfl

/-- The simple-reference pattern matches a well-formed reference placed at
the start of the text. -/
theorem simpleRefAt_ref (x post : List Char) (hx : validNameB x = true)
    (hpost : post.head? ≠ some '\\') :
    simpleRefAt ('{' :: (x ++ '}' :: post)) = some (x, post) := by
  match x, hx with
  | c :: cs, hx =>
    simp only [validNameB, Bool.and_eq_true, List.all_eq_true] at hx
    have hsp : spanName (cs ++ '}' :: post) = (cs, '}' :: post) := by
      refine spanName_append cs ('}' :: post) hx.2 ?_
      intro d hd
      simp at hd
      rcases hd with rfl
      decide
    simp only [List.cons_append]
    rw [simpleRefAt]
    rw [if_pos (show ('{' : Char) = '{' ∧ wordChar c = true from ⟨rfl, hx.1⟩),
      show (spanName (cs ++ '}' :: post)).1 = cs from by rw [hsp],
      show (spanName (cs ++ '}' :: post)).2 = '}' :: post from by rw [hsp]]
    simp only [List.head?_cons, List.tail_cons]
    rw [if_pos (show True ∧ post.head? ≠ some '\\' from ⟨trivial, hpost⟩)]

/-- The drop test finds a well-formed reference wherever it occurs. -/
theorem findSimpleRefB_ref (pre x post : List Char) (hx : validNameB x = true)
    (hpost : post.head? ≠ some '\\') :
    findSimpleRefB (pre ++ '{' :: (x ++ '}' :: post)) = true := by
  induction pre with
  | nil =>
    rw [List.nil_append, findSimpleRefB_cons, simpleRefAt_ref x post hx hpost]
    simp
  | cons c pre ih =>
    rw [List.cons_append, findSimpleRefB_cons, ih]
    simp

theorem simpleScan_cons (attrs : Attrs) (c : Char) (rest : List Char) :
    simpleScan attrs (c :: rest) =
      match simpleRefAt (c :: rest) with
      | some (nm, after) =>
        match attrs.lookup (String.mk nm) with
        | some v => v.data ++ simpleScan attrs after
        | none => '{' :: nm ++ '}' :: simpleScan attrs after
      | none => c :: simpleScan attrs rest := by
  rw [simpleScan]
  rcases hr : simpleRefAt (c :: rest) with _ | ⟨nm, after⟩ <;> simp [hr]

/-- A simple reference to an attribute defined with value `v` is replaced
by `v`, and within the same pass scanning continues after it. -/
theorem simpleScan_ref_defined (attrs : Attrs) (x v : String)
    (rest : List Char) (hx : validNameB x.data = true)
    (hrest : rest.head? ≠ some '\\') (hv : attrs.lookup x = some v) :
    simpleScan attrs ('{' :: (x.data ++ '}' :: rest)) =
      v.data ++ simpleScan attrs rest := by
  have hx' : String.mk x.data = x := by cases x; rfl
  simp only [simpleScan_cons, simpleRefAt_ref x.data rest hx hrest, hx', hv]

theorem endBraceCount_open (t : List Char) (c0 : Char) (u : List Char)
    (hteq : t = '{' :: c0 :: u) (hc0 : c0 ≠ '\\') :
    endBraceCount t '{' 0 0 = 1 := by
  have hget : t.get? 1 = some c0 := by rw [hteq]; rfl
  unfold endBraceCount
  rw [if_pos (Or.inr (by rw [hget]; simp [hc0]))]
  simp

theorem endBraceCount_close (full : List Char) (pre rest : List Char) (R : Nat)
    (hfull : full = pre ++ rest) (hpre : pre.length = R + 1)
    (hrest : rest.head? ≠ some '\\') :
    endBraceCount full '}' R 1 = 0 := by
  have hcond : R = full.length - 1 ∨ full.get? (R + 1) ≠ some '\\' := by
    match rest, hrest with
    | [], _ =>
      left
      rw [hfull]
      simp
      omega
    | r0 :: rs, hrest =>
      right
      rw [hfull, List.get?_append_right (by omega)]
      have : R + 1 - pre.length = 0 := by omega
      rw [this]
      simpa using hrest
  unfold endBraceCount
  rw [if_pos hcond]
  decide

/-- `end_brace` on a well-formed conditional reference whose value has no
braces: the reference extends exactly to its closing brace. -/
theorem endBraceIdx_ref (x rval rest : List Char) (op : Char)
    (hx : validNameB x = true) (hop : op ∈ condOps)
    (hrl : '{' ∉ rval) (hrr : '}' ∉ rval)
    (hrest : rest.head? ≠ some '\\') :
    endBraceIdx ('{' :: (x ++ op :: rval ++ '}' :: rest)) 0 =
      x.length + rval.length + 3 := by
  match x, hx with
  | c0 :: cs, hx =>
    simp only [validNameB, Bool.and_eq_true, List.all_eq_true] at hx
    have hx0 : nameChar c0 = true := wordChar_nameChar c0 hx.1
    have hnb : ∀ d ∈ (c0 :: cs) ++ op :: rval, d ≠ '{' ∧ d ≠ '}' := by
      intro d hd
      simp at hd
      rcases hd with rfl | hd | rfl | hd
      · exact ⟨(nameChar_not_special d hx0).1, (nameChar_not_special d hx0).2.1⟩
      · have h := nameChar_not_special d (hx.2 d hd)
        exact ⟨h.1, h.2.1⟩
      · exact condOps_not_brace d hop
      · exact ⟨fun he => hrl (he ▸ hd), fun he => hrr (he ▸ hd)⟩
    have hc1 : endBraceCount ('{' :: ((c0 :: cs) ++ op :: rval ++ '}' :: rest))
        '{' 0 0 = 1 :=
      endBraceCount_open _ c0 (cs ++ op :: rval ++ '}' :: rest) (by simp)
        (nameChar_not_special c0 hx0).2.2
    have hcend : endBraceCount ('{' :: ((c0 :: cs) ++ op :: rval ++ '}' :: rest))
        '}' (1 + ((c0 :: cs) ++ op :: rval).length) 1 = 0 := by
      refine endBraceCount_close _ ('{' :: ((c0 :: cs) ++ op :: rval) ++ ['}'])
        rest _ (by simp) (by simp; omega) hrest
    rw [endBraceIdx, List.drop_zero, endBraceLoop, hc1, if_neg (by norm_num)]
    rw [show (c0 :: cs) ++ op :: rval ++ '}' :: rest =
      ((c0 :: cs) ++ op :: rval) ++ '}' :: rest from by simp]
    rw [endBraceLoop_no_brace _ _ _ 1 1 hnb (by norm_num)]
    rw [endBraceLoop]
    rw [show ((c0 :: cs) ++ op :: rval) ++ '}' :: rest =
      (c0 :: cs) ++ op :: rval ++ '}' :: rest from by simp] at hcend
    rw [hcend, if_pos rfl]
    simp
    omega

/-- The conditional-reference pattern matches a well-formed reference at
the start of the text, extracting its name, operator and value. -/
theorem condMatchAt_ref (x rval rest : List Char) (op : Char)
    (hx : validNameB x = true) (hop : op ∈ condOps)
    (hrl : '{' ∉ rval) (hrr : '}' ∉ rval)
    (hrest : rest.head? ≠ some '\\') :
    condMatchAt ('{' :: (x ++ op :: rval ++ '}' :: rest)) =
      some (x, op, rval, rest) := by
  match x, hx with
  | c0 :: cs, hx =>
    have hxx := hx
    simp only [validNameB, Bool.and_eq_true, List.all_eq_true] at hx
    have hsp : spanName (cs ++ op :: (rval ++ '}' :: rest)) =
        (cs, op :: (rval ++ '}' :: rest)) := by
      refine spanName_append cs (op :: (rval ++ '}' :: rest)) hx.2 ?_
      intro d hd
      simp at hd
      rw [← hd]
      exact condOps_not_nameChar op hop
    have he := endBraceIdx_ref (c0 :: cs) rval rest op hxx hop hrl hrr hrest
    simp only [List.cons_append, List.append_assoc] at he ⊢
    rw [condMatchAt]
    rw [if_pos (show ('{' : Char) = '{' ∧ wordChar c0 = true from ⟨rfl, hx.1⟩)]
    rw [show (spanName (cs ++ op :: (rval ++ '}' :: rest))).1 = cs from by rw [hsp],
      show (spanName (cs ++ op :: (rval ++ '}' :: rest))).2 =
        op :: (rval ++ '}' :: rest) from by rw [hsp]]
    rw [condMatchAux]
    rw [if_pos ⟨hop, by rw [findUnescClose_append rval rest hrr hrest]; simp⟩]
    rw [he]
    have hdrop1 : (('{' : Char) :: c0 :: (cs ++ op :: (rval ++ '}' :: rest))).drop
        (cs.length + 3) = rval ++ '}' :: rest := by
      rw [show ('{' : Char) :: c0 :: (cs ++ op :: (rval ++ '}' :: rest)) =
        ('{' :: c0 :: cs ++ [op]) ++ (rval ++ '}' :: rest) from by simp]
      rw [List.drop_left' (by simp; try omega)]
    have hdrop2 : (('{' : Char) :: c0 :: (cs ++ op :: (rval ++ '}' :: rest))).drop
        ((c0 :: cs).length + rval.length + 3) = rest := by
      rw [show ('{' : Char) :: c0 :: (cs ++ op :: (rval ++ '}' :: rest)) =
        ('{' :: c0 :: cs ++ op :: rval ++ ['}']) ++ rest from by simp]
      rw [List.drop_left' (by simp; try omega)]
    rw [hdrop1, hdrop2]
    have htake : (c0 :: cs).length + rval.length + 3 - 1 - (cs.length + 3) =
        rval.length := by simp
    rw [htake]
    rw [show (rval ++ '}' :: rest : List Char) = rval ++ ('}' :: rest) from rfl,
      List.take_left' rfl]

theorem condScan_cons (rc : RegexCondOracle) (attrs : Attrs) (c : Char)
    (rest : List Char) :
    condScan rc attrs (c :: rest) =
      match condMatchAt (c :: rest) with
      | some (nm, op, rval, after) =>
        condValue rc attrs nm op rval ++ condScan rc attrs after
      | none => c :: condScan rc attrs rest := by
  rw [condScan]
  rcases hr : condMatchAt (c :: rest) with _ | ⟨nm, op, rval, after⟩ <;> simp [hr]

/-- A well-formed conditional reference is replaced by `condValue`, and
within the same pass scanning continues after the reference. -/
theorem condScan_ref (rc : RegexCondOracle) (attrs : Attrs)
    (x rval rest : List Char) (op : Char)
    (hx : validNameB x = true) (hop : op ∈ condOps)
    (hrl : '{' ∉ rval) (hrr : '}' ∉ rval)
    (hrest : rest.head? ≠ some '\\') :
    condScan rc attrs ('{' :: (x ++ op :: rval ++ '}' :: rest)) =
      condValue rc attrs x op rval ++ condScan rc attrs rest := by
  have hm := condMatchAt_ref x rval rest op hx hop hrl hrr hrest
  have hshape : ('{' : Char) :: (x ++ op :: rval ++ '}' :: rest) =
      '{' :: ((x ++ op :: rval) ++ '}' :: rest) := by simp
  rw [hshape] at hm ⊢
  rw [show ('{' : Char) :: ((x ++ op :: rval) ++ '}' :: rest) =
    '{' :: ((x ++ op :: rval) ++ '}' :: rest) from rfl] at hm
  rw [condScan_cons, hm]

theorem simpleScan_nil (attrs : Attrs) : simpleScan attrs [] = [] := by
  rw [simpleScan]

theorem condScan_nil (rc : RegexCondOracle) (attrs : Attrs) :
    condScan rc attrs [] = [] := by
  rw [condScan]

theorem systemScan_nil (sys : SysOracle) : systemScan sys [] = some [] := by
  rw [systemScan]

theorem replaceFirst_nil (pat sub : List Char) : replaceFirst pat sub [] = [] := rfl

/-- `str.replace` is the identity when the first pattern character does
not occur in the text. -/
theorem replaceAll_not_mem (pat sub t : List Char) (p0 : Char) (ps : List Char)
    (hpat : pat = p0 :: ps) (h : p0 ∉ t) : replaceAll pat sub t = t := by
  induction t with
  | nil => rw [replaceAll]
  | cons c rest ih =>
    rw [replaceAll]
    have hpre : ¬(pat ≠ [] ∧ pat.isPrefixOf (c :: rest)) := by
      rintro ⟨-, hp⟩
      rw [hpat] at hp
      rcases List.isPrefixOf_iff_prefix.1 hp with ⟨u, hu⟩
      have : p0 = c := by
        have := congrArg List.head? hu
        simpa using this
      exact h (by simp [← this])
    rw [if_neg hpre, ih (fun hm => h (by simp [hm]))]

/-- Escape normalization is the identity on backslash-free text. -/
theorem escapeNorm_no_backslash (t : List Char) (h : '\\' ∉ t) :
    escapeNorm t = t := by
  unfold escapeNorm
  rw [replaceAll_not_mem _ _ t '\\' ['{'] rfl h,
    replaceAll_not_mem _ _ t '\\' ['}'] rfl h]

/-- With an empty attribute map the simple pass leaves the text
unchanged: every reference is undefined and skipped in place. -/
theorem simpleScan_empty_attrs (t : List Char) : simpleScan [] t = t := by
  have H : ∀ (n : Nat) (t : List Char), t.length ≤ n → simpleScan [] t = t := by
    intro n
    induction n with
    | zero =>
      intro t ht
      match t with
      | [] => exact simpleScan_nil []
    | succ n ih =>
      intro t ht
      match t with
      | [] => exact simpleScan_nil []
      | c :: rest =>
        rw [simpleScan_cons]
        rcases hr : simpleRefAt (c :: rest) with _ | ⟨nm, after⟩
        · have := ih rest (by simp at ht; omega)
          simp [this]
        · have hlen := simpleRefAt_length _ _ _ hr
          have heq := simpleRefAt_eq _ _ _ hr
          have := ih after (by simp at ht hlen; omega)
          simp only [List.lookup_nil, this]
          rw [heq]
  exact H t.length t le_rfl

def condFindB : List Char → Bool
  | [] => false
  | c :: rest => (condMatchAt (c :: rest)).isSome || condFindB rest

/-- The conditional pass leaves text without conditional references
unchanged. -/
theorem condScan_no_match (rc : RegexCondOracle) (attrs : Attrs)
    (t : List Char) (h : condFindB t = false) : condScan rc attrs t = t := by
  induction t with
  | nil => exact condScan_nil rc attrs
  | cons c rest ih =>
    rw [condFindB, Bool.or_eq_false_iff] at h
    rw [condScan_cons]
    rcases hr : condMatchAt (c :: rest) with _ | m
    · simp [ih h.2]
    · rw [hr] at h
      exact absurd h.1 (by simp)

def sysFindB : List Char → Bool
  | [] => false
  | c :: rest => (sysRefAt (c :: rest)).isSome || sysFindB rest

/-- The system pass leaves text without system-attribute references
unchanged. -/
theorem systemScan_no_match (sys : SysOracle) (t : List Char)
    (h : sysFindB t = false) : systemScan sys t = some t := by
  induction t with
  | nil => exact systemScan_nil sys
  | cons c rest ih =>
    rw [sysFindB, Bool.or_eq_false_iff] at h
    rw [systemScan]
    rcases hr : sysRefAt (c :: rest) with _ | m
    · simp [ih h.2]
    · rw [hr] at h
      exact absurd h.1 (by simp)

/-- C1: in `subs_attrs`, if after simple and conditional reference
expansion the line still contains an unescaped reference `{x}` with `x`
undefined in the attribute map, the line is deleted (the undefined
reference test at line 857 fires before the system pass); and a reference
to an attribute defined with the empty-string value is replaced by the
empty string during the simple pass, so the line is not dropped on
account of that reference. -/
theorem subs_attrs_drop_rule :
    (∀ (sys : SysOracle) (rc : RegexCondOracle) (attrs : Attrs)
        (line pre x post : List Char),
      condScan rc attrs (simpleScan attrs (escapeNorm line)) =
        pre ++ '{' :: (x ++ '}' :: post) →
      validNameB x = true →
      attrs.lookup (String.mk x) = none →
      post.head? ≠ some '\\' →
      subsAttrsLine sys rc attrs line = none) ∧
    (∀ (attrs : Attrs) (x : String) (rest : List Char),
      validNameB x.data = true →
      rest.head? ≠ some '\\' →
      attrs.lookup x = some "" →
      simpleScan attrs ('{' :: (x.data ++ '}' :: rest)) =
        simpleScan attrs rest) := by
  constructor
  · intro sys rc attrs line pre x post hc hx hundef hpost
    simp only [subsAttrsLine]
    rw [hc, findSimpleRefB_ref pre x post hx hpost]
    simp
  · intro attrs x rest hx hrest hv
    exact simpleScan_ref_defined attrs x "" rest hx hrest hv

/-- Witness for C1: the line `{x}` with an empty attribute map is
dropped; with `x` defined as the empty string a `{x}` reference vanishes
and the rest of the line survives the simple pass unchanged. -/
theorem subs_attrs_drop_rule_witness :
    subsAttrsLine (fun _ _ => none) (fun _ _ _ => []) []
        ['{', 'x', '}'] = none ∧
    simpleScan [("x", "")] ('{' :: ("x".data ++ '}' :: ['a'])) =
      simpleScan [("x", "")] ['a'] := by
  constructor
  · refine subs_attrs_drop_rule.1 (fun _ _ => none) (fun _ _ _ => [])
      [] ['{', 'x', '}'] [] ['x'] [] ?_ (by decide) rfl (by decide)
    rw [escapeNorm_no_backslash ['{', 'x', '}'] (by decide),
      simpleScan_empty_attrs,
      condScan_no_match _ _ _ (by decide)]
    rfl
  · exact subs_attrs_drop_rule.2 [("x", "")] "x" ['a'] (by decide)
      (by decide) rfl

/-- C2: the semantics of the conditional reference operators
`=`, `?`, `!`, `#`, `%` in `subs_attrs` (lines 793-860): the reference
`{name OP value}` is replaced by `condValue`, whose value for a defined
name is lval / rval / empty / rval / drop-marker and for an undefined
name is rval / empty / rval / drop-marker / rval respectively; the drop
markers are texts the undefined-reference test recognises, so the whole
line is dropped. -/
theorem subs_attrs_conditional_ops :
    (∀ (rc : RegexCondOracle) (attrs : Attrs) (x rval rest : List Char)
        (op : Char),
      validNameB x = true → op ∈ condOps → '{' ∉ rval → '}' ∉ rval →
      rest.head? ≠ some '\\' →
      condScan rc attrs ('{' :: (x ++ op :: rval ++ '}' :: rest)) =
        condValue rc attrs x op rval ++ condScan rc attrs rest) ∧
    (∀ (rc : RegexCondOracle) (attrs : Attrs) (x rval : List Char)
        (lval : String),
      attrs.lookup (String.mk x) = some lval →
      condValue rc attrs x '=' rval = lval.data ∧
      condValue rc attrs x '?' rval = rval ∧
      condValue rc attrs x '!' rval = [] ∧
      condValue rc attrs x '#' rval = rval ∧
      condValue rc attrs x '%' rval = ['{', 'z', 'z', 'z', 'z', 'z', '}'] ∧
      findSimpleRefB (condValue rc attrs x '%' rval) = true) ∧
    (∀ (rc : RegexCondOracle) (attrs : Attrs) (x rval : List Char),
      attrs.lookup (String.mk x) = none → validNameB x = true →
      condValue rc attrs x '=' rval = rval ∧
      condValue rc attrs x '?' rval = [] ∧
      condValue rc attrs x '!' rval = rval ∧
      condValue rc attrs x '#' rval = '{' :: (x ++ ['}']) ∧
      findSimpleRefB (condValue rc attrs x '#' rval) = true ∧
      condValue rc attrs x '%' rval = rval) := by
  refine ⟨?_, ?_, ?_⟩
  · intro rc attrs x rval rest op hx hop hrl hrr hrest
    exact condScan_ref rc attrs x rval rest op hx hop hrl hrr hrest
  · intro rc attrs x rval lval hv
    have hz : findSimpleRefB ['{', 'z', 'z', 'z', 'z', 'z', '}'] = true := by
      decide
    refine ⟨?_, ?_, ?_, ?_, ?_, ?_⟩ <;>
      simp [condValue, hv, hz]
  · intro rc attrs x rval hv hx
    have hmark : findSimpleRefB ('{' :: (x ++ ['}'])) = true := by
      have := findSimpleRefB_ref [] x [] hx (by simp)
      simpa using this
    refine ⟨?_, ?_, ?_, ?_, ?_, ?_⟩ <;>
      simp [condValue, hv, hmark]

/-- Witness for C2: `{x?y}` with `x` defined expands to `y`; `{x#y}` with
`x` undefined leaves the drop marker. -/
theorem subs_attrs_conditional_ops_witness :
    condScan (fun _ _ _ => []) [("x", "v")]
        ('{' :: (['x'] ++ '?' :: ['y'] ++ '}' :: [])) =
      condValue (fun _ _ _ => []) [("x", "v")] ['x'] '?' ['y'] ++
        condScan (fun _ _ _ => []) [("x", "v")] [] ∧
    condValue (fun _ _ _ => []) [("x", "v")] ['x'] '?' ['y'] = ['y'] ∧
    condValue (fun _ _ _ => []) [] ['x'] '#' ['y'] = '{' :: (['x'] ++ ['}']) := by
  refine ⟨?_, ?_, ?_⟩
  · exact subs_attrs_conditional_ops.1 (fun _ _ _ => []) [("x", "v")]
      ['x'] ['y'] [] '?' (by decide) (by decide) (by decide) (by decide)
      (by decide)
  · exact (subs_attrs_conditional_ops.2.1 (fun _ _ _ => []) [("x", "v")]
      ['x'] ['y'] "v" (by decide)).2.1
  · exact (subs_attrs_conditional_ops.2.2 (fun _ _ _ => []) []
      ['x'] ['y'] (by decide) (by decide)).2.2.2.1

/-! ### `Config.subs_specialchars` (asciidoc.py lines 4075-4084)

`result = result + self.specialchars.get(ch, ch)`: each character of the
input is looked up in the `[specialcharacters]` table and replaced by the
table value, or copied unchanged. -/

/-- The `[specialcharacters]` table: entry keys are single characters
(the loader enforces `len(k) == 1`), values are strings. -/
abbrev SpecialChars := List (Char × List Char)

def subs_specialchars (tbl : SpecialChars) (s : List Char) : List Char :=
  match s with
  | [] => []
  | ch :: rest =>
    (match tbl.lookup ch with
     | some v => v
     | none => [ch]) ++ subs_specialchars tbl rest

/-- C4 counterexample: with the loadable table `a=b, b=c` the pass is not
idempotent: one pass over `"a"` gives `"b"`, a second pass gives `"c"`. -/
theorem subs_specialchars_not_idempotent_cex :
    ¬ (∀ (tbl : SpecialChars) (s : List Char),
        subs_specialchars tbl (subs_specialchars tbl s) =
          subs_specialchars tbl s) := by
  intro h
  have := h [('a', ['b']), ('b', ['c'])] ['a']
  revert this
  decide

theorem lookup_mem {α β : Type} [BEq α] [LawfulBEq α] (l : List (α × β))
    (k : α) (v : β) (h : l.lookup k = some v) : (k, v) ∈ l := by
  induction l with
  | nil => exact absurd h (by simp [List.lookup])
  | cons p rest ih =>
    match p with
    | (a, b) =>
      rw [List.lookup] at h
      by_cases hk : (k == a) = true
      · rw [hk] at h
        simp at h hk
        simp [hk, h]
      · have hk' : (k == a) = false := by simpa using hk
        rw [hk'] at h
        simp [ih h]

theorem subs_specialchars_append (tbl : SpecialChars) (u w : List Char) :
    subs_specialchars tbl (u ++ w) =
      subs_specialchars tbl u ++ subs_specialchars tbl w := by
  induction u with
  | nil => rfl
  | cons c us ih =>
    rw [List.cons_append, subs_specialchars, ih, subs_specialchars]
    rw [List.append_assoc]

/-- C4 amended: the specialcharacters pass is idempotent provided no
character occurring in a substitution value is itself a key of the table
(the shipped table `& = &amp;`, `< = &lt;`, `> = &gt;` does not satisfy
this: the `&` of `&lt;` is re-substituted by a second pass). -/
theorem subs_specialchars_idempotent :
    ∀ (tbl : SpecialChars),
      (∀ k v, (k, v) ∈ tbl → ∀ c ∈ v, tbl.lookup c = none) →
      ∀ s, subs_specialchars tbl (subs_specialchars tbl s) =
        subs_specialchars tbl s := by
  intro tbl htbl s
  have hfix : ∀ u : List Char, (∀ c ∈ u, tbl.lookup c = none) →
      subs_specialchars tbl u = u := by
    intro u
    induction u with
    | nil => intro _; rfl
    | cons c rest ih =>
      intro hu
      rw [subs_specialchars, hu c (by simp), ih (fun d hd => hu d (by simp [hd]))]
      rfl
  induction s with
  | nil => rfl
  | cons c rest ih =>
    have hcons : subs_specialchars tbl (c :: rest) =
        subs_specialchars tbl [c] ++ subs_specialchars tbl rest := by
      exact subs_specialchars_append tbl [c] rest
    rw [hcons, subs_specialchars_append, ih]
    congr 1
    rcases hc : tbl.lookup c with _ | v
    · have h1 : subs_specialchars tbl [c] = [c] := by
        rw [subs_specialchars, hc]
        rfl
      rw [h1, h1]
    · have h1 : subs_specialchars tbl [c] = v := by
        rw [subs_specialchars, hc]
        simp [subs_specialchars]
      rw [h1, hfix v (htbl c v (lookup_mem tbl c v hc))]

/-- Witness for the amended C4: with the single entry `< = &lt;` (whose
value contains no table key) the pass is idempotent on `"a<"`. -/
theorem subs_specialchars_idempotent_witness :
    subs_specialchars [('<', ['&', 'l', 't', ';'])]
        (subs_specialchars [('<', ['&', 'l', 't', ';'])] ['a', '<']) =
      subs_specialchars [('<', ['&', 'l', 't', ';'])] ['a', '<'] :=
  subs_specialchars_idempotent [('<', ['&', 'l', 't', ';'])]
    (by
      intro k v hkv c hc
      simp at hkv
      rcases hkv with ⟨rfl, rfl⟩
      simp at hc
      rcases hc with rfl | rfl | rfl | rfl <;> decide)
    ['a', '<']

/-! ### `Title.getnumber` (asciidoc.py lines 1649-1666)

The section-number generator iterates over the level-indexed counter
vector `Title.section_numbers` (five counters, levels 0..4): level 0 is
skipped (`if l == 0: continue`), levels below the requested level
contribute `'%d.' % n`, the requested level is incremented and
contributes `'%d.' % (n+1)`, and levels above it are reset to 0.  The
mutated vector is returned alongside the number string. -/

def getnumberLoop (level : Nat) : Nat → List Nat → (List Char × List Nat)
  | _, [] => ([], [])
  | l, n :: rest =>
    let r := getnumberLoop level (l + 1) rest
    if l = 0 then (r.1, n :: r.2)
    else if l < level then (natDec n ++ '.' :: r.1, n :: r.2)
    else if l = level then (natDec (n + 1) ++ '.' :: r.1, (n + 1) :: r.2)
    else (r.1, 0 :: r.2)

def getnumber (level : Nat) (nums : List Nat) : List Char × List Nat :=
  getnumberLoop level 0 nums

/-- C8 counterexample: at level 0 (`document.level` is 0 for a book part
title) `getnumber` increments nothing and returns the empty string: the
level-0 counter stays 0 instead of becoming 1 and no `'1.'` is
produced. -/
theorem getnumber_level0_cex :
    getnumber 0 [0, 0, 0, 0, 0] = ([], [0, 0, 0, 0, 0]) ∧
    (getnumber 0 [0, 0, 0, 0, 0]).2 ≠ [1, 0, 0, 0, 0] ∧
    (getnumber 0 [0, 0, 0, 0, 0]).1 ≠ ['1', '.'] := by
  refine ⟨by decide, by decide, by decide⟩

theorem getnumberLoop_above (level : Nat) (nums : List Nat) (l : Nat)
    (h : level < l) :
    getnumberLoop level l nums = ([], List.replicate nums.length 0) := by
  induction nums generalizing l with
  | nil => simp [getnumberLoop]
  | cons n rest ih =>
    rw [getnumberLoop]
    rw [if_neg (by omega), if_neg (by omega), if_neg (by omega)]
    rw [ih (l + 1) (by omega)]
    simp [List.replicate_succ]

theorem getnumberLoop_below (level : Nat) :
    ∀ (nums : List Nat) (l : Nat), 1 ≤ l → l ≤ level →
      level < l + nums.length →
      getnumberLoop level l nums =
        (List.join ((nums.take (level - l)).map (fun n => natDec n ++ ['.'])) ++
           natDec (nums.getD (level - l) 0 + 1) ++ ['.'],
         nums.take (level - l) ++ [nums.getD (level - l) 0 + 1] ++
           List.replicate (nums.length - (level - l) - 1) 0) := by
  intro nums
  induction nums with
  | nil =>
    intro l h1 h2 h3
    simp at h3
    omega
  | cons n rest ih =>
    intro l h1 h2 h3
    rw [getnumberLoop, if_neg (by omega)]
    by_cases heq : l = level
    · rw [if_neg (by omega), if_pos heq]
      rw [getnumberLoop_above level rest (l + 1) (by omega)]
      have h0 : level - l = 0 := by omega
      simp [h0, List.replicate_succ]
    · have hlt : l < level := by omega
      rw [if_pos hlt]
      rw [ih (l + 1) (by omega) (by omega) (by simp at h3 ⊢; omega)]
      have hd : level - l = (level - (l + 1)) + 1 := by omega
      rw [hd]
      simp only [List.take_succ_cons, List.getD_cons_succ, List.map_cons,
        List.join_cons, List.length_cons]
      simp only [Prod.mk.injEq]
      refine ⟨by simp, ?_⟩
      have harith : rest.length + 1 - (level - (l + 1) + 1) - 1 =
          rest.length - (level - (l + 1)) - 1 := by omega
      rw [harith]
      simp

/-- C8 amended: for levels `k ≥ 1`, `Title.getnumber` increments the
counter at level `k`, keeps counters at levels below `k` (including the
never-printed level-0 counter) unchanged, resets counters above `k` to
zero, and returns the string of the counters at levels 1..k, each
followed by a period, with the level-`k` counter freshly incremented;
for level 0 nothing is incremented, the empty string is returned, and
all counters above level 0 are reset. -/
theorem getnumber_spec :
    (∀ (nums : List Nat) (k : Nat), 1 ≤ k → k < nums.length →
      getnumber k nums =
        (List.join (((nums.take k).drop 1).map (fun n => natDec n ++ ['.'])) ++
           natDec (nums.getD k 0 + 1) ++ ['.'],
         nums.take k ++ [nums.getD k 0 + 1] ++
           List.replicate (nums.length - k - 1) 0)) ∧
    (∀ nums : List Nat,
      getnumber 0 nums = ([], nums.take 1 ++
        List.replicate (nums.length - 1) 0)) := by
  constructor
  · intro nums k h1 h2
    match nums with
    | [] => simp at h2
    | n0 :: rest =>
      have hk : k = (k - 1) + 1 := by omega
      rw [getnumber, getnumberLoop, if_pos rfl,
        getnumberLoop_below k rest 1 le_rfl (by omega)
          (by simp at h2 ⊢; omega)]
      conv_rhs => rw [hk]
      simp only [List.take_succ_cons, List.getD_cons_succ,
        List.drop_succ_cons, List.drop_zero, List.length_cons]
      simp only [Prod.mk.injEq]
      have hi : k - 1 = k - 1 := rfl
      refine ⟨?_, ?_⟩
      · have : k - 1 = k - 1 := rfl
        norm_num
      · have harith : rest.length + 1 - (k - 1 + 1) - 1 =
            rest.length - (k - 1) - 1 := by omega
        rw [harith]
        simp
  · intro nums
    match nums with
    | [] => rfl
    | n0 :: rest =>
      rw [getnumber, getnumberLoop, if_pos rfl,
        getnumberLoop_above 0 rest 1 (by omega)]
      simp

/-- Witness for the amended C8: entering level 2 with counters
`[0,1,2,0,0]` yields `"1.3."` and counters `[0,1,3,0,0]`. -/
theorem getnumber_spec_witness :
    1 ≤ 2 ∧ 2 < ([0, 1, 2, 0, 0] : List Nat).length ∧
    getnumber 2 [0, 1, 2, 0, 0] =
      (List.join (((([0, 1, 2, 0, 0] : List Nat).take 2).drop 1).map
          (fun n => natDec n ++ ['.'])) ++
         natDec (([0, 1, 2, 0, 0] : List Nat).getD 2 0 + 1) ++ ['.'],
       ([0, 1, 2, 0, 0] : List Nat).take 2 ++
         [([0, 1, 2, 0, 0] : List Nat).getD 2 0 + 1] ++
         List.replicate (([0, 1, 2, 0, 0] : List Nat).length - 2 - 1) 0) :=
  ⟨by decide, by decide, getnumber_spec.1 [0, 1, 2, 0, 0] 2 (by decide) (by decide)⟩

/-! ### `Section.gen_id` (asciidoc.py lines 1685-1711)

`base_ident = re.sub(r'[^a-zA-Z0-9]+','_',title).strip('_').lower()`,
prefixed with the `idprefix` attribute (default `'_'`); then the loop
tries `base_ident`, `base_ident_2`, `base_ident_3`, ... and returns the
first identifier not in `Section.ids`, appending it to the list. -/

def isAsciiAlnum (c : Char) : Bool := c.isAlpha || c.isDigit

/-- `re.sub(r'[^a-zA-Z0-9]+', '_', title)`: each maximal run of
non-alphanumeric characters becomes a single underscore. -/
def collapseNonAlnum : List Char → List Char
  | [] => []
  | c :: rest =>
    if isAsciiAlnum c then c :: collapseNonAlnum rest
    else '_' :: collapseNonAlnum (rest.dropWhile (fun d => !isAsciiAlnum d))
termination_by l => l.length
decreasing_by
  · simp
  · simp only [List.length_cons, Nat.lt_succ_iff]
    exact List.Sublist.length_le (List.dropWhile_sublist _)

/-- `.strip('_')`. -/
def stripUnderscore (t : List Char) : List Char :=
  ((t.dropWhile (· = '_')).reverse.dropWhile (· = '_')).reverse

/-- The prefixed base identifier of a title. -/
def base_ident (idpfx : String) (title : List Char) : List Char :=
  idpfx.data ++ (stripUnderscore (collapseNonAlnum title)).map Char.toLower

/-- The candidate tried at loop iteration `i` (`i = 1` is the bare base,
`i ≥ 2` appends `'_%d' % i`). -/
def identCand (base : List Char) (i : Nat) : List Char :=
  if i = 1 then base else base ++ '_' :: natDec i

theorem identCand_inj (base : List Char) {i j : Nat} (hi : 2 ≤ i) (hj : 2 ≤ j)
    (h : identCand base i = identCand base j) : i = j := by
  unfold identCand at h
  rw [if_neg (by omega), if_neg (by omega)] at h
  have h2 := List.append_cancel_left h
  simp at h2
  exact natDec_inj h2

theorem gen_id_exists (base : List Char) (ids : List (List Char)) :
    ∃ j, identCand base (j + 1) ∉ ids := by
  by_contra hall
  push_neg at hall
  have hinj : Function.Injective (fun j : Nat => identCand base (j + 2)) := by
    intro a b hab
    simp only at hab
    have := identCand_inj base (by omega) (by omega) hab
    omega
  have hsub : (Finset.range (ids.length + 1)).image
      (fun j => identCand base (j + 2)) ⊆ ids.toFinset := by
    intro x hx
    simp only [Finset.mem_image, Finset.mem_range] at hx
    obtain ⟨j, _, rfl⟩ := hx
    exact List.mem_toFinset.2 (hall (j + 1))
  have hcard := Finset.card_le_card hsub
  rw [Finset.card_image_of_injective _ hinj, Finset.card_range] at hcard
  have hlen := List.toFinset_card_le ids
  omega

/-- `Section.gen_id`: return the first free candidate and record it in
the list of used ids. -/
def gen_id (ids : List (List Char)) (idpfx : String) (title : List Char) :
    List Char × List (List Char) :=
  let base := base_ident idpfx title
  let j := Nat.find (gen_id_exists base ids)
  (identCand base (j + 1), ids ++ [identCand base (j + 1)])

/-- A run of `gen_id` over a list of titles, threading `Section.ids`. -/
def gen_id_run (ids : List (List Char)) (idpfx : String) :
    List (List Char) → List (List Char)
  | [] => []
  | t :: ts =>
    (gen_id ids idpfx t).1 ::
      gen_id_run (gen_id ids idpfx t).2 idpfx ts

theorem gen_id_fresh (ids : List (List Char)) (idpfx : String)
    (t : List Char) : (gen_id ids idpfx t).1 ∉ ids :=
  Nat.find_spec (gen_id_exists (base_ident idpfx t) ids)

theorem gen_id_records (ids : List (List Char)) (idpfx : String)
    (t : List Char) :
    (gen_id ids idpfx t).2 = ids ++ [(gen_id ids idpfx t).1] := rfl

theorem gen_id_run_not_mem (idpfx : String) :
    ∀ (ts : List (List Char)) (ids : List (List Char)),
      ∀ x ∈ gen_id_run ids idpfx ts, x ∉ ids := by
  intro ts
  induction ts with
  | nil => intro ids x hx; simp [gen_id_run] at hx
  | cons t ts ih =>
    intro ids x hx
    rw [gen_id_run] at hx
    rcases List.mem_cons.1 hx with hx | hx
    · exact hx ▸ gen_id_fresh ids idpfx t
    · intro hmem
      have h2 := ih (gen_id ids idpfx t).2 x hx
      rw [gen_id_records] at h2
      exact h2 (by simp [hmem])

/-- C9: every identifier returned by `gen_id` is new, it is recorded, the
prefixed base identifier is returned when unused, the identifier returned
is the first free candidate of `base, base_2, base_3, ...`, and no two
identifiers produced within one run are equal. -/
theorem gen_id_unique :
    (∀ (ids : List (List Char)) (idpfx : String) (t : List Char),
      (gen_id ids idpfx t).1 ∉ ids ∧
      (gen_id ids idpfx t).2 = ids ++ [(gen_id ids idpfx t).1]) ∧
    (∀ (ids : List (List Char)) (idpfx : String) (t : List Char),
      base_ident idpfx t ∉ ids →
      (gen_id ids idpfx t).1 = base_ident idpfx t) ∧
    (∀ (ids : List (List Char)) (idpfx : String) (t : List Char),
      ∃ i, 1 ≤ i ∧ (gen_id ids idpfx t).1 =
          identCand (base_ident idpfx t) i ∧
        identCand (base_ident idpfx t) i ∉ ids ∧
        ∀ m, 1 ≤ m → m < i → identCand (base_ident idpfx t) m ∈ ids) ∧
    (∀ (ids : List (List Char)) (idpfx : String) (ts : List (List Char)),
      (gen_id_run ids idpfx ts).Nodup) := by
  refine ⟨?_, ?_, ?_, ?_⟩
  · intro ids idpfx t
    exact ⟨gen_id_fresh ids idpfx t, gen_id_records ids idpfx t⟩
  · intro ids idpfx t hb
    have h0 : identCand (base_ident idpfx t) (0 + 1) ∉ ids := by
      simpa [identCand] using hb
    have hfind : Nat.find (gen_id_exists (base_ident idpfx t) ids) = 0 :=
      Nat.le_zero.1 (Nat.find_le h0)
    show identCand (base_ident idpfx t)
      (Nat.find (gen_id_exists (base_ident idpfx t) ids) + 1) = _
    rw [hfind]
    simp [identCand]
  · intro ids idpfx t
    refine ⟨Nat.find (gen_id_exists (base_ident idpfx t) ids) + 1,
      by omega, rfl, Nat.find_spec (gen_id_exists (base_ident idpfx t) ids),
      ?_⟩
    intro m h1 h2
    have := Nat.find_min (gen_id_exists (base_ident idpfx t) ids)
      (m := m - 1) (by omega)
    simp only [not_not] at this
    have hm : m - 1 + 1 = m := by omega
    rwa [hm] at this
  · intro ids idpfx ts
    induction ts generalizing ids with
    | nil => simp [gen_id_run]
    | cons t ts ih =>
      rw [gen_id_run]
      refine List.nodup_cons.2 ⟨?_, ih _⟩
      intro hmem
      have h2 := gen_id_run_not_mem idpfx ts (gen_id ids idpfx t).2
        _ hmem
      rw [gen_id_records] at h2
      exact h2 (by simp)

/-- Witness for C9: with no ids used, the title `A` gets the plain
prefixed base identifier. -/
theorem gen_id_unique_witness :
    base_ident "_" ['A'] ∉ ([] : List (List Char)) ∧
    (gen_id [] "_" ['A']).1 = base_ident "_" ['A'] :=
  ⟨by simp, gen_id_unique.2.1 [] "_" ['A'] (by simp)⟩

/-! ### `CalloutMap` (asciidoc.py lines 3250-3287)

`add` increments `calloutindex`, appends it to the `comap` entry of the
list item, and returns `'CO%d-%d' % (listnumber, calloutindex)`;
`listclose` increments `listnumber`, resets `calloutindex` and clears
the map. -/

structure CalloutMap where
  comap : List (Nat × List Nat)
  calloutindex : Nat
  listnumber : Nat

def calloutMapInit : CalloutMap := ⟨[], 0, 1⟩

/-- `CalloutMap.calloutid`: `'CO%d-%d' % (listnumber, calloutindex)`. -/
def calloutid (listnumber calloutindex : Nat) : List Char :=
  'C' :: 'O' :: (natDec listnumber ++ '-' :: natDec calloutindex)

/-- The `comap` update of `add`: append the callout index to the entry of
`listindex`, creating the entry if missing. -/
def comapAdd (m : List (Nat × List Nat)) (li ci : Nat) : List (Nat × List Nat) :=
  if (m.lookup li).isSome then
    m.map (fun p => if p.1 = li then (p.1, p.2 ++ [ci]) else p)
  else m ++ [(li, [ci])]

def CalloutMap.add (s : CalloutMap) (listindex : Nat) : List Char × CalloutMap :=
  (calloutid s.listnumber (s.calloutindex + 1),
   ⟨comapAdd s.comap listindex (s.calloutindex + 1),
    s.calloutindex + 1, s.listnumber⟩)

def CalloutMap.listclose (s : CalloutMap) : CalloutMap :=
  ⟨[], 0, s.listnumber + 1⟩

/-- One run of the callout machinery: a sequence of `add`s (with their
list-item indices) and list closes; collects the returned callout ids. -/
inductive CoOp where
  | add (listindex : Nat)
  | close

def coRun (s : CalloutMap) : List CoOp → List (List Char)
  | [] => []
  | CoOp.add li :: ops => (s.add li).1 :: coRun (s.add li).2 ops
  | CoOp.close :: ops => coRun s.listclose ops

theorem natDec_no_dash (n : Nat) : '-' ∉ natDec n := by
  intro hm
  have := natDec_all_digits n '-' hm
  exact absurd this (by decide)

theorem append_split_first (c : Char) :
    ∀ (a a' b b' : List Char), c ∉ a → c ∉ a' →
      a ++ c :: b = a' ++ c :: b' → a = a' ∧ b = b' := by
  intro a
  induction a with
  | nil =>
    intro a' b b' _ ha' h
    match a' with
    | [] => simpa using h
    | d :: ds =>
      simp at h
      exact absurd (by simp [h.1]) ha'
  | cons d ds ih =>
    intro a' b b' ha ha' h
    match a' with
    | [] =>
      simp at h
      exact absurd (by simp [h.1]) ha
    | e :: es =>
      simp at h
      obtain ⟨rfl, h2⟩ := h
      have := ih es b b' (fun hm => ha (by simp [hm]))
        (fun hm => ha' (by simp [hm])) h2
      simp [this.1, this.2]

theorem calloutid_inj (L1 k1 L2 k2 : Nat)
    (h : calloutid L1 k1 = calloutid L2 k2) : L1 = L2 ∧ k1 = k2 := by
  unfold calloutid at h
  simp only [List.cons.injEq, true_and] at h
  have := append_split_first '-' (natDec L1) (natDec L2) (natDec k1)
    (natDec k2) (natDec_no_dash L1) (natDec_no_dash L2) h
  exact ⟨natDec_inj this.1, natDec_inj this.2⟩

theorem coRun_ids (ops : List CoOp) :
    ∀ (s : CalloutMap), ∀ x ∈ coRun s ops,
      ∃ L k, x = calloutid L k ∧
        (s.listnumber < L ∨ (L = s.listnumber ∧ s.calloutindex < k)) := by
  induction ops with
  | nil => intro s x hx; simp [coRun] at hx
  | cons op ops ih =>
    intro s x hx
    match op with
    | CoOp.add li =>
      rw [coRun] at hx
      rcases List.mem_cons.1 hx with hx | hx
      · exact ⟨s.listnumber, s.calloutindex + 1, hx, Or.inr ⟨rfl, by omega⟩⟩
      · obtain ⟨L, k, hid, hord⟩ := ih (s.add li).2 x hx
        refine ⟨L, k, hid, ?_⟩
        simp only [CalloutMap.add] at hord
        rcases hord with h | ⟨h1, h2⟩
        · exact Or.inl h
        · exact Or.inr ⟨h1, by omega⟩
    | CoOp.close =>
      rw [coRun] at hx
      obtain ⟨L, k, hid, hord⟩ := ih s.listclose x hx
      refine ⟨L, k, hid, Or.inl ?_⟩
      simp only [CalloutMap.listclose] at hord
      rcases hord with h | ⟨h1, _⟩
      · omega
      · omega

/-- C10: every id returned by `CalloutMap.add` is `CO<listnumber>` `-`
`<calloutindex>` with `calloutindex` incremented on each `add`;
`listclose` increments `listnumber`, resets `calloutindex` and clears
the map; and all ids returned during one run are pairwise distinct. -/
theorem calloutmap_ids_distinct :
    (∀ (s : CalloutMap) (li : Nat),
      (s.add li).1 = calloutid s.listnumber (s.calloutindex + 1) ∧
      (s.add li).2.calloutindex = s.calloutindex + 1 ∧
      (s.add li).2.listnumber = s.listnumber ∧
      (s.add li).2.comap = comapAdd s.comap li (s.calloutindex + 1)) ∧
    (∀ s : CalloutMap,
      s.listclose.listnumber = s.listnumber + 1 ∧
      s.listclose.calloutindex = 0 ∧
      s.listclose.comap = []) ∧
    (∀ ops : List CoOp, (coRun calloutMapInit ops).Nodup) := by
  refine ⟨fun s li => ⟨rfl, rfl, rfl, rfl⟩, fun s => ⟨rfl, rfl, rfl⟩, ?_⟩
  have H : ∀ (ops : List CoOp) (s : CalloutMap), (coRun s ops).Nodup := by
    intro ops
    induction ops with
    | nil => intro s; simp [coRun]
    | cons op ops ih =>
      intro s
      match op with
      | CoOp.add li =>
        rw [coRun]
        refine List.nodup_cons.2 ⟨?_, ih _⟩
        intro hmem
        obtain ⟨L, k, hid, hord⟩ := coRun_ids ops (s.add li).2 _ hmem
        have hinj := calloutid_inj s.listnumber (s.calloutindex + 1) L k hid
        simp only [CalloutMap.add] at hord
        rcases hord with h | ⟨h1, h2⟩ <;> omega
      | CoOp.close =>
        rw [coRun]
        exact ih _
  exact fun ops => H ops calloutMapInit

/-! ### `Table.parse_psv_dsv` and `Table.parse_rows` (asciidoc.py lines
2681-2694 and 2779-2812)

The PSV body parser joins the source lines with newlines and iterates the
matches of the default PSV separator `((?P<cellcount>\d+)\*)?\|`
(`Table.SEPARATORS`, line 2488).  Text between separators accumulates
into the current cell; a cell ending in a backslash re-instates the
matched separator text literally; otherwise the pending cell is appended
`cellcount` times and the multiplier of the just-matched separator
becomes the new `cellcount`.  The final cell follows the last separator.
For the `psv` format a leading empty cell is expected and popped;
otherwise a non-halting error is reported and the cells are returned
unchanged.  `parse_rows` slices the cell list into rows of `colcount`
cells. -/

def spanDigits : List Char → (List Char × List Char)
  | [] => ([], [])
  | c :: rest =>
    if c.isDigit then
      let r := spanDigits rest
      (c :: r.1, r.2)
    else ([], c :: rest)

/-- Match of `((?P<cellcount>\d+)\*)?\|` at the head of `t`: a maximal
digit run followed by `*|` (only the maximal run can be followed by `*`),
or a bare `|`.  Returns the `cellcount` group and the match length. -/
def psvSepMatchAt (t : List Char) : Option (Option Nat × Nat) :=
  if (spanDigits t).1 ≠ [] ∧ (spanDigits t).2.head? = some '*' ∧
      (spanDigits t).2.tail.head? = some '|' then
    some (some (decVal (spanDigits t).1), (spanDigits t).1.length + 2)
  else if t.head? = some '|' then some (none, 1)
  else none

/-- The next separator match in `t` (the step of `re.finditer`): the text
before the match, the `cellcount` group, the matched text (`mo.group()`)
and the text after the match. -/
def findNextSep : List Char → Option (List Char × Option Nat × List Char × List Char)
  | [] => none
  | c :: rest =>
    match psvSepMatchAt (c :: rest) with
    | some (cc, len) => some ([], cc, (c :: rest).take len, (c :: rest).drop len)
    | none =>
      (findNextSep rest).map (fun r => (c :: r.1, r.2.1, r.2.2.1, r.2.2.2))

theorem psvSepMatchAt_pos (t : List Char) (cc : Option Nat) (len : Nat)
    (h : psvSepMatchAt t = some (cc, len)) : 1 ≤ len := by
  unfold psvSepMatchAt at h
  by_cases h1 : (spanDigits t).1 ≠ [] ∧ (spanDigits t).2.head? = some '*' ∧
      (spanDigits t).2.tail.head? = some '|'
  · rw [if_pos h1] at h
    simp at h
    omega
  · rw [if_neg h1] at h
    by_cases h2 : t.head? = some '|'
    · rw [if_pos h2] at h
      simp at h
      omega
    · rw [if_neg h2] at h
      exact absurd h (by simp)

theorem findNextSep_eq (t pre mo rest : List Char) (cc : Option Nat)
    (h : findNextSep t = some (pre, cc, mo, rest)) :
    t = pre ++ mo ++ rest ∧ 1 ≤ mo.length := by
  induction t generalizing pre with
  | nil => exact absurd h (by simp [findNextSep])
  | cons c t' ih =>
    rw [findNextSep] at h
    rcases hm : psvSepMatchAt (c :: t') with _ | ⟨cc', len⟩
    · rw [hm] at h
      simp only [Option.map_eq_some'] at h
      obtain ⟨r, hr, hre⟩ := h
      match r, hr, hre with
      | (p1, q1, q2, q3), hr, hre =>
        simp at hre
        obtain ⟨h1, h2, h3, h4⟩ := hre
        subst h2
        subst h3
        subst h4
        have := ih p1 hr
        constructor
        · rw [← h1]
          simp [this.1]
        · exact this.2
    · rw [hm] at h
      simp at h
      obtain ⟨h1, h2, h3, h4⟩ := h
      have hlen := psvSepMatchAt_pos _ _ _ hm
      subst h3
      subst h4
      subst h1
      constructor
      · simp
      · simp
        omega

theorem findNextSep_length (t pre mo rest : List Char) (cc : Option Nat)
    (h : findNextSep t = some (pre, cc, mo, rest)) : rest.length < t.length := by
  obtain ⟨he, hm⟩ := findNextSep_eq t pre mo rest cc h
  rw [he]
  simp
  omega

/-- The `for mo in re.finditer(separator, text)` loop of `parse_psv_dsv`
(lines 2787-2800), fused with its final-cell step (lines 2801-2803).
`cell` is the accumulating cell text, `cc` the pending `cellcount`,
`cells` the output so far. -/
def psvScan (t cell : List Char) (cc : Nat) (cells : List (List Char)) :
    List (List Char) :=
  match h : findNextSep t with
  | none => cells ++ List.replicate cc (cell ++ t)
  | some (pre, ccOpt, mo, rest) =>
    if (cell ++ pre).getLast? = some '\\' then
      psvScan rest ((cell ++ pre).dropLast ++ mo) cc cells
    else
      psvScan rest [] (ccOpt.getD 1) (cells ++ List.replicate cc (cell ++ pre))
termination_by t.length
decreasing_by
  all_goals exact findNextSep_length _ _ _ _ _ h

theorem psvScan_eq (t cell : List Char) (cc : Nat) (cells : List (List Char)) :
    psvScan t cell cc cells =
      match findNextSep t with
      | none => cells ++ List.replicate cc (cell ++ t)
      | some (pre, ccOpt, mo, rest) =>
        if (cell ++ pre).getLast? = some '\\' then
          psvScan rest ((cell ++ pre).dropLast ++ mo) cc cells
        else
          psvScan rest [] (ccOpt.getD 1)
            (cells ++ List.replicate cc (cell ++ pre)) := by
  rw [psvScan]
  rcases h : findNextSep t with _ | ⟨pre, ccOpt, mo, rest⟩ <;> simp [h]

/-- `Table.parse_psv_dsv` for the `psv` format with the default
separator: returns (error-flag, cells).  The error flag models the
non-halting `self.error('missing leading separator')`, after which the
cells are returned unchanged; otherwise the expected leading empty cell
is popped. -/
def parse_psv_dsv (lines : List (List Char)) : Bool × List (List Char) :=
  let cells := psvScan (List.intercalate ['\n'] lines) [] 1 []
  match cells with
  | [] => (true, [])
  | c0 :: rest => if c0 = [] then (false, rest) else (true, cells)

/-- `cells[i:i+colcount]` slicing loop of `parse_rows` (lines 2687-2690).
`colcount = 0` is unreachable (`range` with step 0 raises in Python). -/
def chunkRows : Nat → List (List Char) → List (List (List Char))
  | _, [] => []
  | 0, _ :: _ => []
  | c + 1, x :: xs => ((x :: xs).take (c + 1)) :: chunkRows (c + 1) (xs.drop c)
termination_by _ l => l.length
decreasing_by
  have := List.length_drop c xs
  simp
  omega

/-- `Table.parse_rows` for psv/dsv: slice the parsed cells into rows of
`colcount` cells (the last row may be ragged). -/
def parse_rows (colcount : Nat) (lines : List (List Char)) :
    Bool × List (List (List Char)) :=
  let r := parse_psv_dsv lines
  (r.1, chunkRows colcount r.2)

def isPySpace (c : Char) : Bool :=
  c = ' ' || c = '\t' || c = '\n' || c = '\r' || c = '\x0b' || c = '\x0c'

/-- Python `str.strip()` (used downstream of `parse_rows` when cell data
is rendered; used here only to state the claimed cell values). -/
def pyStrip (t : List Char) : List Char :=
  ((t.dropWhile isPySpace).reverse.dropWhile isPySpace).reverse

/-- C5 counterexample: on the claimed input `| a | b` / `| c | 2*d` with
two columns the parser returns the second row as the two raw cells
`' c '` and `' 2*d'` — the `2*` written inside the cell text (not against
a separator bar) is literal cell content, and no row has cells
`c`, `d`, `d`. -/
theorem parse_psv_multiplier_cex :
    parse_rows 2 [['|', ' ', 'a', ' ', '|', ' ', 'b'],
                  ['|', ' ', 'c', ' ', '|', ' ', '2', '*', 'd']] =
      (false, [[[' ', 'a', ' '], [' ', 'b', '\n']],
               [[' ', 'c', ' '], [' ', '2', '*', 'd']]]) ∧
    ((parse_rows 2 [['|', ' ', 'a', ' ', '|', ' ', 'b'],
                    ['|', ' ', 'c', ' ', '|', ' ', '2', '*', 'd']]).2.get? 1).map
        (fun r => r.map pyStrip) ≠ some [['c'], ['d'], ['d']] := by
  have h : parse_rows 2 [['|', ' ', 'a', ' ', '|', ' ', 'b'],
                  ['|', ' ', 'c', ' ', '|', ' ', '2', '*', 'd']] =
      (false, [[[' ', 'a', ' '], [' ', 'b', '\n']],
               [[' ', 'c', ' '], [' ', '2', '*', 'd']]]) := by
    simp [parse_rows, parse_psv_dsv, psvScan_eq, findNextSep, psvSepMatchAt,
      spanDigits, decVal, chunkRows, List.intercalate]
  refine ⟨h, ?_⟩
  rw [h]
  decide

theorem spanDigits_eq (t a b : List Char) (h : spanDigits t = (a, b)) :
    t = a ++ b := by
  induction t generalizing a b with
  | nil =>
    simp [spanDigits] at h
    simp [h.1, h.2]
  | cons c rest ih =>
    simp only [spanDigits] at h
    by_cases hc : c.isDigit
    · rw [if_pos hc] at h
      obtain ⟨h1, h2⟩ := Prod.mk.injEq .. ▸ h
      cases a with
      | nil => simp at h1
      | cons a0 as =>
        simp at h1
        obtain ⟨rfl, h1⟩ := h1
        simp [← ih as b (by rw [← h1, ← h2])]
    · rw [if_neg hc] at h
      obtain ⟨h1, h2⟩ := Prod.mk.injEq .. ▸ h
      simp [← h1, ← h2]

theorem spanDigits_append (a b : List Char) (ha : ∀ c ∈ a, c.isDigit = true)
    (hb : ∀ c, b.head? = some c → c.isDigit = false) :
    spanDigits (a ++ b) = (a, b) := by
  induction a with
  | nil =>
    cases b with
    | nil => rfl
    | cons c rest =>
      simp only [List.nil_append, spanDigits]
      rw [hb c rfl]
      simp
  | cons c cs ih =>
    simp only [List.cons_append, spanDigits]
    rw [ha c (by simp)]
    simp only [if_true]
    have := ih (fun d hd => ha d (by simp [hd]))
    rw [show cs.append b = cs ++ b from rfl, this]

theorem psvSepMatchAt_none (t : List Char) (h : '|' ∉ t) :
    psvSepMatchAt t = none := by
  unfold psvSepMatchAt
  rcases hs : spanDigits t with ⟨ds, rest⟩
  have hd := spanDigits_eq t ds rest hs
  change (if ds ≠ [] ∧ rest.head? = some '*' ∧ rest.tail.head? = some '|' then
      some (some (decVal ds), ds.length + 2)
    else if t.head? = some '|' then some (none, 1) else none) = none
  have h1 : ¬(ds ≠ [] ∧ rest.head? = some '*' ∧ rest.tail.head? = some '|') := by
    rintro ⟨-, -, hbar⟩
    have : '|' ∈ rest.tail := List.mem_of_mem_head? hbar
    have : '|' ∈ rest := List.mem_of_mem_tail this
    exact h (by rw [hd]; simp [this])
  rw [if_neg h1]
  have h2 : ¬ t.head? = some '|' := fun hh => h (List.mem_of_mem_head? hh)
  rw [if_neg h2]

theorem natDec_ne_nil (n : Nat) : natDec n ≠ [] := by
  rw [natDec]
  by_cases h : n < 10
  · rw [dif_pos h]
    simp
  · rw [dif_neg h]
    simp

theorem findNextSep_none (t : List Char) (h : '|' ∉ t) : findNextSep t = none := by
  induction t with
  | nil => rfl
  | cons c rest ih =>
    rw [findNextSep, psvSepMatchAt_none _ h,
      ih (fun hm => h (List.mem_cons_of_mem c hm))]
    rfl

theorem psvSepMatchAt_skip (c : Char) (t : List Char) (hd : c.isDigit = false)
    (hb : c ≠ '|') : psvSepMatchAt (c :: t) = none := by
  have hs : spanDigits (c :: t) = ([], c :: t) := by
    rw [spanDigits, if_neg (by simp [hd])]
  unfold psvSepMatchAt
  rw [hs]
  simp [hb]

theorem findNextSep_skip (u t : List Char)
    (hu : ∀ c ∈ u, c.isDigit = false ∧ c ≠ '|') :
    findNextSep (u ++ t) =
      (findNextSep t).map (fun r => (u ++ r.1, r.2.1, r.2.2.1, r.2.2.2)) := by
  induction u with
  | nil =>
    rcases h : findNextSep t with _ | ⟨p, q, m, r⟩ <;> simp [h]
  | cons c u' ih =>
    have hc := hu c (by simp)
    rw [List.cons_append, findNextSep, psvSepMatchAt_skip c _ hc.1 hc.2,
      ih (fun d hd => hu d (by simp [hd]))]
    rcases h : findNextSep t with _ | ⟨p, q, m, r⟩ <;> simp [h]

theorem findNextSep_head (c : Char) (rest : List Char) (cc : Option Nat) (len : Nat)
    (h : psvSepMatchAt (c :: rest) = some (cc, len)) :
    findNextSep (c :: rest) =
      some ([], cc, (c :: rest).take len, (c :: rest).drop len) := by
  rw [findNextSep, h]

theorem psvSepMatchAt_pipe (t : List Char) :
    psvSepMatchAt ('|' :: t) = some (none, 1) := by
  have hs : spanDigits ('|' :: t) = ([], '|' :: t) := by
    rw [spanDigits, if_neg (by decide : ¬(Char.isDigit '|' = true))]
  unfold psvSepMatchAt
  rw [hs]
  simp

theorem psvSep_at_mult (n : Nat) (v : List Char) :
    findNextSep (natDec n ++ '*' :: '|' :: v) =
      some ([], some n, natDec n ++ ['*', '|'], v) := by
  have hspan : spanDigits (natDec n ++ '*' :: '|' :: v) =
      (natDec n, '*' :: '|' :: v) :=
    spanDigits_append _ _ (natDec_all_digits n)
      (fun c hc => by simp at hc; rw [← hc]; decide)
  have hm : psvSepMatchAt (natDec n ++ '*' :: '|' :: v) =
      some (some n, (natDec n).length + 2) := by
    unfold psvSepMatchAt
    rw [hspan]
    simp [natDec_ne_nil n, decVal_natDec n]
  cases hnd : natDec n with
  | nil => exact absurd hnd (natDec_ne_nil n)
  | cons d ds =>
    rw [hnd] at hm
    rw [List.cons_append] at hm ⊢
    rw [findNextSep_head _ _ _ _ hm]
    have hsplit : d :: (ds ++ '*' :: '|' :: v) = (d :: (ds ++ ['*', '|'])) ++ v := by
      simp
    have hlen : (d :: ds).length + 2 = (d :: (ds ++ ['*', '|'])).length := by
      simp
    rw [hsplit, hlen, List.take_left, List.drop_left]
    simp

theorem psvScan_step (t cell : List Char) (cc : Nat) (cells : List (List Char))
    (pre mo rest : List Char) (ccOpt : Option Nat)
    (h : findNextSep t = some (pre, ccOpt, mo, rest))
    (hnb : (cell ++ pre).getLast? ≠ some '\\') :
    psvScan t cell cc cells =
      psvScan rest [] (ccOpt.getD 1) (cells ++ List.replicate cc (cell ++ pre)) := by
  rw [psvScan_eq, h]
  show (if (cell ++ pre).getLast? = some '\\' then
      psvScan rest ((cell ++ pre).dropLast ++ mo) cc cells
    else psvScan rest [] (ccOpt.getD 1)
      (cells ++ List.replicate cc (cell ++ pre))) = _
  rw [if_neg hnb]

theorem psvScan_end (t cell : List Char) (cc : Nat) (cells : List (List Char))
    (h : findNextSep t = none) :
    psvScan t cell cc cells = cells ++ List.replicate cc (cell ++ t) := by
  rw [psvScan_eq, h]

/-- C5 (amended): the `N*` multiplier of the psv parser belongs to the
separator regex `((cellcount)\d+[*])?[|]`, so it takes effect only when
written directly against a separator bar, as in `2*|`, and it multiplies
the cell that FOLLOWS that separator.  Concretely, the body
`| a | b | e` / `| c 2*| d` with three columns yields two rows, the
second being the cells ` c `, ` d`, ` d`.  In general, for a single-line
body `|<u><n>*|<v>` where `u` contains no digit and no bar and does not
end in a backslash and `v` contains no bar, the parsed cells are `u`
followed by `n` copies of `v`.  (The claim's input `| c | 2*d`, with
`2*` inside the cell text away from any bar, keeps `2*d` as literal cell
content — see `parse_psv_multiplier_cex`.) -/
theorem parse_psv_multiplier :
    parse_rows 3 [['|', ' ', 'a', ' ', '|', ' ', 'b', ' ', '|', ' ', 'e'],
                  ['|', ' ', 'c', ' ', '2', '*', '|', ' ', 'd']] =
      (false, [[[' ', 'a', ' '], [' ', 'b', ' '], [' ', 'e', '\n']],
               [[' ', 'c', ' '], [' ', 'd'], [' ', 'd']]]) ∧
    ∀ (u v : List Char) (n : Nat),
      (∀ c ∈ u, c.isDigit = false ∧ c ≠ '|') →
      u.getLast? ≠ some '\\' →
      '|' ∉ v →
      parse_psv_dsv ['|' :: (u ++ (natDec n ++ '*' :: '|' :: v))] =
        (false, u :: List.replicate n v) := by
  constructor
  · simp [parse_rows, parse_psv_dsv, psvScan_eq, findNextSep, psvSepMatchAt,
      spanDigits, decVal, chunkRows, List.intercalate]
  · intro u v n hu hl hv
    have h1 : findNextSep ('|' :: (u ++ (natDec n ++ '*' :: '|' :: v))) =
        some ([], none, ['|'], u ++ (natDec n ++ '*' :: '|' :: v)) := by
      rw [findNextSep_head _ _ _ _ (psvSepMatchAt_pipe _)]
      simp
    have h2 : findNextSep (u ++ (natDec n ++ '*' :: '|' :: v)) =
        some (u, some n, natDec n ++ ['*', '|'], v) := by
      rw [findNextSep_skip u _ hu, psvSep_at_mult]
      simp
    have h3 : findNextSep v = none := findNextSep_none v hv
    have hrun : psvScan ('|' :: (u ++ (natDec n ++ '*' :: '|' :: v))) [] 1 [] =
        [] :: u :: List.replicate n v := by
      rw [psvScan_step _ _ _ _ _ _ _ _ h1 (by simp),
          psvScan_step _ _ _ _ _ _ _ _ h2 (by simpa using hl),
          psvScan_end _ _ _ _ h3]
      simp
    have hint : List.intercalate ['\n']
          [('|' :: (u ++ (natDec n ++ '*' :: '|' :: v)))] =
        '|' :: (u ++ (natDec n ++ '*' :: '|' :: v)) := by
      simp [List.intercalate]
    simp only [parse_psv_dsv, hint, hrun]
    simp

/-- Witness for the general clause of `parse_psv_multiplier`: the body
`| c 2*| d` as a single line parses to the cell ` c ` followed by two
copies of ` d`. -/
theorem parse_psv_multiplier_witness :
    parse_psv_dsv ['|' :: ([' ', 'c', ' '] ++ (natDec 2 ++ '*' :: '|' :: [' ', 'd']))] =
      (false, [' ', 'c', ' '] :: List.replicate 2 [' ', 'd']) :=
  parse_psv_multiplier.2 [' ', 'c', ' '] [' ', 'd'] 2
    (by decide) (by decide) (by decide)

/-! ### `Macro.subs_passthroughs`, `Macros.extract_passthroughs` and
`Macros.restore_passthroughs` (asciidoc.py lines 3042-3055 and 3208-3247)

`extract_passthroughs` runs `reo.sub(subs_func, text)` for every
passthrough-capable macro of the requested kind (default inline,
`prefix == ''`).  `subs_func` keeps an escaped match (leading backslash)
verbatim; otherwise it applies the macro's substitutions to the
`passtext` group (`Lex.subs_1`), additionally unescapes `\]` for inline
macros, appends the result to `passthroughs`, and replaces the passtext
inside the match with the placeholder `\t<index>\t`.
`restore_passthroughs` replaces the first occurrence of each placeholder,
in index order, with the stashed text.  The host regex engine is an
oracle: `find` returns the first-match decomposition
`(pre, mh, pt, tl, post)` with the whole match `mh ++ pt ++ tl`, and
`findWF` certifies the decomposition. -/

def pyUnescBr (t : List Char) : List Char := replaceAll ['\\', ']'] [']'] t

structure PassthroughDef where
  pfx : List Char
  subsFn : List Char → List Char
  find : List Char →
    Option (List Char × List Char × List Char × List Char × List Char)
  findWF : ∀ t pre mh pt tl post,
    find t = some (pre, mh, pt, tl, post) →
    t = pre ++ (mh ++ (pt ++ (tl ++ post))) ∧ post.length < t.length

def subsVal (m : PassthroughDef) (pt : List Char) : List Char :=
  if m.pfx = [] then pyUnescBr (m.subsFn pt) else m.subsFn pt

def subs_passthroughs (m : PassthroughDef) (t : List Char)
    (pts : List (List Char)) : List Char × List (List Char) :=
  match h : m.find t with
  | none => (t, pts)
  | some (pre, mh, pt, tl, post) =>
    if (mh ++ (pt ++ tl)).head? = some '\\' then
      (pre ++ ((mh ++ (pt ++ tl)) ++ (subs_passthroughs m post pts).1),
        (subs_passthroughs m post pts).2)
    else
      (pre ++ (mh ++ ('\t' :: (natDec pts.length ++ '\t' ::
          (tl ++ (subs_passthroughs m post (pts ++ [subsVal m pt])).1)))),
        (subs_passthroughs m post (pts ++ [subsVal m pt])).2)
termination_by t.length
decreasing_by
  all_goals exact (m.findWF _ _ _ _ _ _ h).2

theorem subs_passthroughs_eq (m : PassthroughDef) (t : List Char)
    (pts : List (List Char)) :
    subs_passthroughs m t pts =
      match m.find t with
      | none => (t, pts)
      | some (pre, mh, pt, tl, post) =>
        if (mh ++ (pt ++ tl)).head? = some '\\' then
          (pre ++ ((mh ++ (pt ++ tl)) ++ (subs_passthroughs m post pts).1),
            (subs_passthroughs m post pts).2)
        else
          (pre ++ (mh ++ ('\t' :: (natDec pts.length ++ '\t' ::
              (tl ++ (subs_passthroughs m post (pts ++ [subsVal m pt])).1)))),
            (subs_passthroughs m post (pts ++ [subsVal m pt])).2) := by
  rw [subs_passthroughs]
  rcases h : m.find t with _ | ⟨pre, mh, pt, tl, post⟩ <;> simp [h]

theorem subs_passthroughs_none (m : PassthroughDef) (t : List Char)
    (pts : List (List Char)) (h : m.find t = none) :
    subs_passthroughs m t pts = (t, pts) := by
  rw [subs_passthroughs_eq, h]

theorem subs_passthroughs_esc (m : PassthroughDef) (t : List Char)
    (pts : List (List Char)) (pre mh pt tl post : List Char)
    (h : m.find t = some (pre, mh, pt, tl, post))
    (hesc : (mh ++ (pt ++ tl)).head? = some '\\') :
    subs_passthroughs m t pts =
      (pre ++ ((mh ++ (pt ++ tl)) ++ (subs_passthroughs m post pts).1),
        (subs_passthroughs m post pts).2) := by
  rw [subs_passthroughs_eq, h]
  show (if (mh ++ (pt ++ tl)).head? = some '\\' then
      (pre ++ ((mh ++ (pt ++ tl)) ++ (subs_passthroughs m post pts).1),
        (subs_passthroughs m post pts).2)
    else
      (pre ++ (mh ++ ('\t' :: (natDec pts.length ++ '\t' ::
          (tl ++ (subs_passthroughs m post (pts ++ [subsVal m pt])).1)))),
        (subs_passthroughs m post (pts ++ [subsVal m pt])).2)) = _
  rw [if_pos hesc]

theorem subs_passthroughs_sub (m : PassthroughDef) (t : List Char)
    (pts : List (List Char)) (pre mh pt tl post : List Char)
    (h : m.find t = some (pre, mh, pt, tl, post))
    (hesc : ¬ (mh ++ (pt ++ tl)).head? = some '\\') :
    subs_passthroughs m t pts =
      (pre ++ (mh ++ ('\t' :: (natDec pts.length ++ '\t' ::
          (tl ++ (subs_passthroughs m post (pts ++ [subsVal m pt])).1)))),
        (subs_passthroughs m post (pts ++ [subsVal m pt])).2) := by
  rw [subs_passthroughs_eq, h]
  show (if (mh ++ (pt ++ tl)).head? = some '\\' then
      (pre ++ ((mh ++ (pt ++ tl)) ++ (subs_passthroughs m post pts).1),
        (subs_passthroughs m post pts).2)
    else
      (pre ++ (mh ++ ('\t' :: (natDec pts.length ++ '\t' ::
          (tl ++ (subs_passthroughs m post (pts ++ [subsVal m pt])).1)))),
        (subs_passthroughs m post (pts ++ [subsVal m pt])).2)) = _
  rw [if_neg hesc]

def extract_passthroughs (ms : List PassthroughDef) (t : List Char) :
    List Char × List (List Char) :=
  ms.foldl
    (fun acc m => if m.pfx = [] then subs_passthroughs m acc.1 acc.2 else acc)
    (t, [])

def restoreAux (t : List Char) (i : Nat) : List (List Char) → List Char
  | [] => t
  | v :: vs =>
    restoreAux (replaceFirst ('\t' :: (natDec i ++ ['\t'])) v t) (i + 1) vs

def restore_passthroughs (pts : List (List Char)) (t : List Char) : List Char :=
  restoreAux t 0 pts

def cexFind (t : List Char) :
    Option (List Char × List Char × List Char × List Char × List Char) :=
  if t = ['p', ':', '[', 'a', '\\', ']', ']'] then
    some ([], ['p', ':', '['], ['a', '\\', ']'], [']'], [])
  else none

/-- Inline passthrough macro oracle whose regex matches exactly the text
`p:[a\]]` (name `p`, passtext `a\]` — an escaped `]` inside the
attribute list), with identity substitutions. -/
def cexMacro : PassthroughDef where
  pfx := []
  subsFn := fun s => s
  find := cexFind
  findWF := by
    intro t pre mh pt tl post h
    unfold cexFind at h
    by_cases hc : t = ['p', ':', '[', 'a', '\\', ']', ']']
    · rw [if_pos hc] at h
      simp only [Option.some.injEq, Prod.mk.injEq] at h
      obtain ⟨h1, h2, h3, h4, h5⟩ := h
      subst h1 h2 h3 h4 h5 hc
      exact ⟨by decide, by decide⟩
    · rw [if_neg hc] at h
      exact absurd h (by simp)

/-- C3 counterexample: extracting and restoring the passthrough in
`p:[a\]]` yields `p:[a]]` — `subs_passthroughs` unescapes the `\]`
inside the passtext before stashing it (asciidoc.py line 3237), so the
restored text differs from the original. -/
theorem restore_extract_not_id_cex :
    restore_passthroughs
        (extract_passthroughs [cexMacro] ['p', ':', '[', 'a', '\\', ']', ']']).2
        (extract_passthroughs [cexMacro] ['p', ':', '[', 'a', '\\', ']', ']']).1 =
      ['p', ':', '[', 'a', ']', ']'] ∧
    (['p', ':', '[', 'a', ']', ']'] : List Char) ≠
      ['p', ':', '[', 'a', '\\', ']', ']'] := by
  refine ⟨?_, by decide⟩
  have e1 : cexMacro.find ['p', ':', '[', 'a', '\\', ']', ']'] =
      some ([], ['p', ':', '['], ['a', '\\', ']'], [']'], []) := by
    simp [cexMacro, cexFind]
  have e0 : cexMacro.find [] = none := by
    simp [cexMacro, cexFind]
  have ev : subsVal cexMacro ['a', '\\', ']'] = ['a', ']'] := by
    simp [subsVal, cexMacro, pyUnescBr, replaceAll]
  have e2 : subs_passthroughs cexMacro ['p', ':', '[', 'a', '\\', ']', ']'] [] =
      (['p', ':', '[', '\t', '0', '\t', ']'], [['a', ']']]) := by
    rw [subs_passthroughs_sub cexMacro _ [] _ _ _ _ _ e1 (by decide),
      subs_passthroughs_none cexMacro _ _ e0, ev]
    simp [natDec, digitChar]
  have e3 : extract_passthroughs [cexMacro] ['p', ':', '[', 'a', '\\', ']', ']'] =
      (['p', ':', '[', '\t', '0', '\t', ']'], [['a', ']']]) := by
    simp only [extract_passthroughs, List.foldl_cons, List.foldl_nil]
    exact (if_pos rfl).trans e2
  rw [e3]
  simp [restore_passthroughs, restoreAux, natDec, digitChar, replaceFirst]

theorem replaceFirst_exact (pat sub rest : List Char) (h : pat ≠ []) :
    replaceFirst pat sub (pat ++ rest) = sub ++ rest := by
  cases pat with
  | nil => exact absurd rfl h
  | cons p ps =>
    have hp : (p :: ps).isPrefixOf (p :: (ps ++ rest)) = true := by
      rw [List.isPrefixOf_iff_prefix]
      exact ⟨rest, by simp⟩
    rw [List.cons_append, replaceFirst, if_pos hp]
    rw [show p :: (ps ++ rest) = (p :: ps) ++ rest from by simp, List.drop_left]

theorem replaceFirst_skip (p X pat sub : List Char)
    (hpat : pat.head? = some '\t') (hp : '\t' ∉ p) :
    replaceFirst pat sub (p ++ X) = p ++ replaceFirst pat sub X := by
  induction p with
  | nil => simp
  | cons c cs ih =>
    have hcond : ¬ pat.isPrefixOf (c :: (cs ++ X)) = true := by
      intro hpre
      rw [List.isPrefixOf_iff_prefix] at hpre
      obtain ⟨s, hs⟩ := hpre
      cases pat with
      | nil => exact absurd hpat (by simp)
      | cons q qs =>
        have hq : q = '\t' := by
          simpa using hpat
        rw [List.cons_append] at hs
        have hc : q = c := (List.cons.injEq _ _ _ _ ▸ hs).1
        exact hp (by rw [← hc, hq]; simp)
    rw [List.cons_append, replaceFirst, if_neg hcond,
      ih (fun hm => hp (List.mem_cons_of_mem c hm))]
    rfl

theorem restoreAux_append (p : List Char) (hp : '\t' ∉ p) :
    ∀ (vs : List (List Char)) (X : List Char) (k : Nat),
      restoreAux (p ++ X) k vs = p ++ restoreAux X k vs := by
  intro vs
  induction vs with
  | nil => intro X k; rfl
  | cons v vs ih =>
    intro X k
    rw [restoreAux,
      replaceFirst_skip p X ('\t' :: (natDec k ++ ['\t'])) v rfl hp, ih]
    rfl

theorem replaceFirst_skipT (p X rest sub : List Char) (hp : '\t' ∉ p) :
    replaceFirst ('\t' :: rest) sub (p ++ X) =
      p ++ replaceFirst ('\t' :: rest) sub X :=
  replaceFirst_skip p X ('\t' :: rest) sub rfl hp

theorem subs_restore (m : PassthroughDef) (hm : m.pfx = [])
    (hstash : ∀ t pre mh pt tl post,
      m.find t = some (pre, mh, pt, tl, post) →
      m.subsFn pt = pt ∧ pyUnescBr pt = pt) :
    ∀ (N : Nat) (t : List Char) (pts : List (List Char)), t.length ≤ N →
      '\t' ∉ t →
      ∃ vs : List (List Char),
        (subs_passthroughs m t pts).2 = pts ++ vs ∧
        restoreAux (subs_passthroughs m t pts).1 pts.length vs = t := by
  intro N
  induction N with
  | zero =>
    intro t pts hlen htab
    rcases hf : m.find t with _ | ⟨pre, mh, pt, tl, post⟩
    · rw [subs_passthroughs_none m t pts hf]
      exact ⟨[], by simp, rfl⟩
    · have := (m.findWF t pre mh pt tl post hf).2
      omega
  | succ N ih =>
    intro t pts hlen htab
    rcases hf : m.find t with _ | ⟨pre, mh, pt, tl, post⟩
    · rw [subs_passthroughs_none m t pts hf]
      exact ⟨[], by simp, rfl⟩
    · obtain ⟨hteq, hlt⟩ := m.findWF t pre mh pt tl post hf
      have hpost : '\t' ∉ post := fun hmem => htab (by rw [hteq]; simp [hmem])
      have hpieces : '\t' ∉ pre ++ (mh ++ (pt ++ tl)) := by
        intro hmem
        apply htab
        rw [hteq]
        simp at hmem ⊢
        tauto
      by_cases hesc : (mh ++ (pt ++ tl)).head? = some '\\'
      · rw [subs_passthroughs_esc m t pts pre mh pt tl post hf hesc]
        obtain ⟨vs, hv2, hvr⟩ := ih post pts (by omega) hpost
        refine ⟨vs, hv2, ?_⟩
        rw [show pre ++ ((mh ++ (pt ++ tl)) ++ (subs_passthroughs m post pts).1) =
            (pre ++ (mh ++ (pt ++ tl))) ++ (subs_passthroughs m post pts).1
            from by simp,
          restoreAux_append _ hpieces, hvr, hteq]
        simp
      · have hv : subsVal m pt = pt := by
          obtain ⟨hs1, hs2⟩ := hstash t pre mh pt tl post hf
          rw [subsVal, if_pos hm, hs1, hs2]
        rw [subs_passthroughs_sub m t pts pre mh pt tl post hf hesc, hv]
        obtain ⟨vs, hv2, hvr⟩ := ih post (pts ++ [pt]) (by omega) hpost
        refine ⟨pt :: vs, ?_, ?_⟩
        · rw [hv2]
          simp
        · rw [restoreAux]
          rw [show pre ++ (mh ++ ('\t' :: (natDec pts.length ++ '\t' ::
                (tl ++ (subs_passthroughs m post (pts ++ [pt])).1)))) =
              (pre ++ mh) ++ (('\t' :: (natDec pts.length ++ ['\t'])) ++
                (tl ++ (subs_passthroughs m post (pts ++ [pt])).1))
              from by simp]
          rw [replaceFirst_skipT (pre ++ mh) _ _ _
            (fun hmem => hpieces (by simp at hmem ⊢; tauto))]
          rw [replaceFirst_exact _ _ _ (by simp)]
          rw [show (pre ++ mh) ++ (pt ++
                (tl ++ (subs_passthroughs m post (pts ++ [pt])).1)) =
              (pre ++ (mh ++ (pt ++ tl))) ++
                (subs_passthroughs m post (pts ++ [pt])).1
              from by simp]
          rw [restoreAux_append _ hpieces]
          have hvr' : restoreAux (subs_passthroughs m post (pts ++ [pt])).1
              (pts.length + 1) vs = post := by
            simpa using hvr
          rw [hvr', hteq]
          simp

/-- C3 (amended): restore-after-extract is the identity only when the
stashed passtext is left unchanged by the macro's substitutions: for an
inline passthrough macro whose substitutions fix every matched passtext
(`subsFn pt = pt`) and whose matched passtexts contain no escaped `]`
(`pyUnescBr pt = pt`), and for input text containing no tab character,
`restore_passthroughs` after `extract_passthroughs` returns the original
text.  In general the two are not inverse: the passtext is substituted
(`Lex.subs_1`) and `\]`-unescaped before stashing, so the restored text
is the transformed one — see `restore_extract_not_id_cex`. -/
theorem restore_extract_passthroughs (m : PassthroughDef) (hm : m.pfx = [])
    (hstash : ∀ t pre mh pt tl post,
      m.find t = some (pre, mh, pt, tl, post) →
      m.subsFn pt = pt ∧ pyUnescBr pt = pt)
    (t : List Char) (htab : '\t' ∉ t) :
    restore_passthroughs (extract_passthroughs [m] t).2
      (extract_passthroughs [m] t).1 = t := by
  have hext : extract_passthroughs [m] t = subs_passthroughs m t [] := by
    simp only [extract_passthroughs, List.foldl_cons, List.foldl_nil]
    exact if_pos hm
  obtain ⟨vs, hv2, hvr⟩ := subs_restore m hm hstash t.length t [] le_rfl htab
  rw [hext, restore_passthroughs, hv2]
  simpa using hvr

def wFind (t : List Char) :
    Option (List Char × List Char × List Char × List Char × List Char) :=
  if t = ['p', ':', '[', 'a', ']'] then
    some ([], ['p', ':', '['], ['a'], [']'], [])
  else none

/-- Inline passthrough macro oracle whose regex matches exactly the text
`p:[a]` with passtext `a`, with identity substitutions. -/
def wMacro : PassthroughDef where
  pfx := []
  subsFn := fun s => s
  find := wFind
  findWF := by
    intro t pre mh pt tl post h
    unfold wFind at h
    by_cases hc : t = ['p', ':', '[', 'a', ']']
    · rw [if_pos hc] at h
      simp only [Option.some.injEq, Prod.mk.injEq] at h
      obtain ⟨h1, h2, h3, h4, h5⟩ := h
      subst h1 h2 h3 h4 h5 hc
      exact ⟨by decide, by decide⟩
    · rw [if_neg hc] at h
      exact absurd h (by simp)

/-- Witness for `restore_extract_passthroughs` at the macro `wMacro` on
the text `p:[a]`, whose single passtext `a` is fixed by the identity
substitutions and contains no escaped bracket. -/
theorem restore_extract_passthroughs_witness :
    restore_passthroughs
        (extract_passthroughs [wMacro] ['p', ':', '[', 'a', ']']).2
        (extract_passthroughs [wMacro] ['p', ':', '[', 'a', ']']).1 =
      ['p', ':', '[', 'a', ']'] :=
  restore_extract_passthroughs wMacro rfl
    (fun t pre mh pt tl post h => by
      have h' : wFind t = some (pre, mh, pt, tl, post) := h
      unfold wFind at h'
      by_cases hc : t = ['p', ':', '[', 'a', ']']
      · rw [if_pos hc] at h'
        simp only [Option.some.injEq, Prod.mk.injEq] at h'
        obtain ⟨h1, h2, h3, h4, h5⟩ := h'
        subst h3
        exact ⟨rfl, by simp [pyUnescBr, replaceAll]⟩
      · rw [if_neg hc] at h'
        exact absurd h' (by simp))
    ['p', ':', '[', 'a', ']'] (by decide)

/-! ### `Reader1.__init__` and `Reader1.read` (asciidoc.py lines 3299-3420)

The line reader: `read` tops up a read-ahead buffer (low-water mark
`READ_BUFFER_MIN = 10`) from the current file, expanding tabs and
right-stripping each line, pops the oldest buffered line, and — unless
conditional exclusion is active — processes `include::`/`include1::`
macros: once `current_depth >= max_depth` the raw macro line is returned
unchanged (line 3359); otherwise the target is attribute-substituted
(falsy result: skip to next line), made safe against the including
file's directory (failure: skip to next line), `include1` targets are
cached in `config.include1` and replaced by a `{include1:<file>}`
reference (or passed through when dumping), and plain includes clone the
reader into `parent`, apply `tabsize`/`depth` attributes, open the
target (pre-filling the buffer by a read-then-unread, where a falsy
first line is not pushed back), increment `current_depth` and read on.
At end of buffer and file, `eof` pops back to the parent reader.
Collaborators (the macro regex, `subs_attrs` on the target,
`safe_filename`, the filesystem, attribute parsing and validation) are
oracle fields of `IncEnv`; recursion is fuelled, `Except.error ()`
signalling fuel exhaustion only. -/

def READ_BUFFER_MIN : Nat := 10

def expandTabsAux (ts : Nat) : List Char → Nat → List Char
  | [], _ => []
  | c :: rest, col =>
    if c = '\t' then
      List.replicate (ts - col % ts) ' ' ++
        expandTabsAux ts rest (col + (ts - col % ts))
    else if c = '\n' ∨ c = '\r' then c :: expandTabsAux ts rest 0
    else c :: expandTabsAux ts rest (col + 1)

def pyExpandTabs (ts : Nat) (s : List Char) : List Char := expandTabsAux ts s 0

def pyRstrip (t : List Char) : List Char :=
  (t.reverse.dropWhile isPySpace).reverse

def procLine (tabsize : Nat) (s : List Char) : List Char :=
  pyRstrip (if tabsize ≠ 0 then pyExpandTabs tabsize s else s)

structure Frame where
  fname : List Char
  f : List (List Char)
  lineno : Nat
  nextBuf : List (List Char × Nat × List Char)
  cursor : Option (List Char × Nat × List Char)
  tabsize : Nat
  currentDepth : Nat
  maxDepth : Nat

structure R1St where
  cur : Frame
  parents : List Frame
  include1 : List (List Char × List (List Char))

/-- `Reader1.__init__` (lines 3299-3309): `tabsize = 8`,
`current_depth = 0`, `max_depth = 5`. -/
def r1init : R1St :=
  ⟨{ fname := [], f := [], lineno := 0, nextBuf := [], cursor := none,
     tabsize := 8, currentDepth := 0, maxDepth := 5 }, [], []⟩

def topUpLoop (fname : List Char) (tabsize : Nat) :
    List (List Char) → Nat → List (List Char × Nat × List Char) →
    List (List Char) × Nat × List (List Char × Nat × List Char)
  | [], n, buf => ([], n, buf)
  | s :: rest, n, buf =>
    if buf.length + 1 > READ_BUFFER_MIN then
      (rest, n + 1, buf ++ [(fname, n + 1, procLine tabsize s)])
    else topUpLoop fname tabsize rest (n + 1)
      (buf ++ [(fname, n + 1, procLine tabsize s)])

def topUp (fr : Frame) : Frame :=
  if fr.nextBuf.length ≤ READ_BUFFER_MIN then
    { fr with
      f := (topUpLoop fr.fname fr.tabsize fr.f fr.lineno fr.nextBuf).1,
      lineno := (topUpLoop fr.fname fr.tabsize fr.f fr.lineno fr.nextBuf).2.1,
      nextBuf := (topUpLoop fr.fname fr.tabsize fr.f fr.lineno fr.nextBuf).2.2 }
  else fr

/-- `Reader1.eof` (lines 3409-3420): with an empty buffer, close the
file and restore the parent reader, repeatedly; `True` only when no
parent is left. -/
def r1eofPop (c : Frame) : List Frame → Bool × Frame × List Frame
  | [] => (c.nextBuf.isEmpty, c, [])
  | p :: ps => if c.nextBuf.isEmpty then r1eofPop p ps else (false, c, p :: ps)

structure IncEnv where
  incMatch : List Char → Option (Bool × List Char × List Char)
  sattrs : List Char → Option (List Char)
  dirname : List Char → List Char
  expandUserVars : List Char → List Char
  safeFname : List Char → List Char → Option (List Char)
  fileLines : List Char → List (List Char)
  parseTabsize : List Char → Option Nat
  parseDepth : List Char → Option Nat
  confTabsize : Nat
  dumping : Bool

def stdinName : List Char := ['<', 's', 't', 'd', 'i', 'n', '>']

def include1Ref (fname : List Char) : List Char :=
  ['{', 'i', 'n', 'c', 'l', 'u', 'd', 'e', '1', ':'] ++ fname ++ ['}']

mutual

def r1read (env : IncEnv) : Nat → R1St → Bool →
    Except Unit (Option (List Char) × R1St)
  | 0, _, _ => Except.error ()
  | Nat.succ fuel, st, skip =>
    match (topUp st.cur).nextBuf with
    | [] =>
      match r1eofPop (topUp st.cur) st.parents with
      | (true, c2, ps2) => Except.ok (none, ⟨c2, ps2, st.include1⟩)
      | (false, c2, ps2) => r1read env fuel ⟨c2, ps2, st.include1⟩ skip
    | (fn, ln, line) :: restBuf =>
      match env.incMatch line with
      | none =>
        Except.ok (some line,
          ⟨{ topUp st.cur with
              nextBuf := restBuf
              cursor := some (fn, ln, line) }, st.parents, st.include1⟩)
      | some (i1flag, target, attrlist) =>
        if skip then
          Except.ok (some line,
            ⟨{ topUp st.cur with
                nextBuf := restBuf
                cursor := some (fn, ln, line) }, st.parents, st.include1⟩)
        else if (topUp st.cur).maxDepth ≤ (topUp st.cur).currentDepth then
          Except.ok (some line,
            ⟨{ topUp st.cur with
                nextBuf := restBuf
                cursor := some (fn, ln, line) }, st.parents, st.include1⟩)
        else
          match env.sattrs target with
          | none =>
            r1read env fuel
              ⟨{ topUp st.cur with
                  nextBuf := restBuf
                  cursor := some (fn, ln, line) }, st.parents, st.include1⟩
              skip
          | some f0 =>
            if (topUp st.cur).fname = stdinName then
              r1readOpen env fuel
                { topUp st.cur with
                    nextBuf := restBuf
                    cursor := some (fn, ln, line) }
                st.parents st.include1 f0 attrlist
            else
              match env.safeFname (env.expandUserVars f0)
                  (env.dirname (topUp st.cur).fname) with
              | none =>
                r1read env fuel
                  ⟨{ topUp st.cur with
                      nextBuf := restBuf
                      cursor := some (fn, ln, line) },
                    st.parents, st.include1⟩ skip
              | some f1 =>
                if i1flag then
                  if env.dumping = false then
                    Except.ok (some (include1Ref f1),
                      ⟨{ topUp st.cur with
                          nextBuf := restBuf
                          cursor := some (fn, ln, line) }, st.parents,
                        st.include1 ++
                          [(f1, (env.fileLines f1).map pyRstrip)]⟩)
                  else
                    Except.ok (some line,
                      ⟨{ topUp st.cur with
                          nextBuf := restBuf
                          cursor := some (fn, ln, line) }, st.parents,
                        st.include1⟩)
                else
                  r1readOpen env fuel
                    { topUp st.cur with
                        nextBuf := restBuf
                        cursor := some (fn, ln, line) }
                    st.parents st.include1 f1 attrlist
termination_by n _ _ => (n, 0)

def r1readOpen (env : IncEnv) (fuel : Nat) (c : Frame) (ps : List Frame)
    (inc1 : List (List Char × List (List Char)))
    (fname attrlist : List Char) :
    Except Unit (Option (List Char) × R1St) :=
  match r1read env fuel
      ⟨{ c with
          fname := fname
          f := env.fileLines fname
          lineno := 0
          nextBuf := []
          tabsize := match env.parseTabsize attrlist with
            | some n => n
            | none => env.confTabsize
          maxDepth := match env.parseDepth attrlist with
            | some d => c.currentDepth + d
            | none => c.maxDepth },
        c :: ps, inc1⟩ false with
  | Except.error e => Except.error e
  | Except.ok (res, st2) =>
    match res with
    | some l =>
      if l ≠ [] then
        match st2.cur.cursor with
        | some cu =>
          r1read env fuel
            ⟨{ st2.cur with
                nextBuf := cu :: st2.cur.nextBuf
                cursor := none
                currentDepth := st2.cur.currentDepth + 1 },
              st2.parents, st2.include1⟩ false
        | none =>
          r1read env fuel
            ⟨{ st2.cur with currentDepth := st2.cur.currentDepth + 1 },
              st2.parents, st2.include1⟩ false
      else
        r1read env fuel
          ⟨{ st2.cur with currentDepth := st2.cur.currentDepth + 1 },
            st2.parents, st2.include1⟩ false
    | none =>
      r1read env fuel
        ⟨{ st2.cur with currentDepth := st2.cur.currentDepth + 1 },
          st2.parents, st2.include1⟩ false
termination_by (fuel, 1)

end

/-- C6: the include nesting depth limit defaults to 5
(`Reader1.__init__`, line 3309), and when the line popped from the read
buffer matches an `include::`/`include1::` macro while
`current_depth >= max_depth`, `Reader1.read` returns the raw macro line
itself: no error is raised and no file is opened — the state change is
exactly the buffer pop (plus the top-up that precedes every read), with
`fname`, `current_depth`, `max_depth`, the parent stack and the
`include1` cache untouched. -/
theorem include_depth_guard :
    (r1init.cur.maxDepth = 5 ∧ r1init.cur.currentDepth = 0) ∧
    ∀ (env : IncEnv) (fuel : Nat) (st : R1St) (fn line : List Char) (ln : Nat)
      (restBuf : List (List Char × Nat × List Char))
      (b : Bool) (target attrlist : List Char),
      (topUp st.cur).nextBuf = (fn, ln, line) :: restBuf →
      env.incMatch line = some (b, target, attrlist) →
      (topUp st.cur).maxDepth ≤ (topUp st.cur).currentDepth →
      r1read env (fuel + 1) st false =
        Except.ok (some line,
          ⟨{ topUp st.cur with
              nextBuf := restBuf
              cursor := some (fn, ln, line) }, st.parents, st.include1⟩) := by
  refine ⟨⟨rfl, rfl⟩, ?_⟩
  intro env fuel st fn line ln restBuf b target attrlist h1 h2 h3
  rw [r1read]
  simp [h1, h2, h3]

def incLine : List Char :=
  ['i', 'n', 'c', 'l', 'u', 'd', 'e', ':', ':', 'f', '[', ']']

def wIncEnv : IncEnv where
  incMatch := fun l => if l = incLine then some (false, ['f'], []) else none
  sattrs := fun _ => some ['f']
  dirname := fun _ => []
  expandUserVars := fun s => s
  safeFname := fun f _ => some f
  fileLines := fun _ => []
  parseTabsize := fun _ => none
  parseDepth := fun _ => none
  confTabsize := 8
  dumping := false

def wIncSt : R1St :=
  ⟨{ fname := ['d'], f := [], lineno := 1, nextBuf := [(['d'], 1, incLine)],
     cursor := none, tabsize := 8, currentDepth := 5, maxDepth := 5 }, [], []⟩

/-- Witness for `include_depth_guard`: a reader at include depth 5 (the
default maximum) whose next buffered line is `include::f[]` returns that
line verbatim. -/
theorem include_depth_guard_witness :
    r1read wIncEnv 1 wIncSt false =
      Except.ok (some incLine,
        ⟨{ topUp wIncSt.cur with
            nextBuf := []
            cursor := some (['d'], 1, incLine) },
          wIncSt.parents, wIncSt.include1⟩) :=
  include_depth_guard.2 wIncEnv 0 wIncSt ['d'] incLine 1 [] false ['f'] []
    rfl (by simp [wIncEnv]) (by decide)

/-! ### `error`, `DelimitedBlock.translate` and the `asciidoc` driver
(asciidoc.py lines 131-142, 2417-2460, 4757-4774 and 4929-4930)

`error(msg, cursor, halt)` raises `EAsciiDoc` when `halt=True`;
otherwise it prints the message and sets `document.has_errors`,
continuing the run.  `DelimitedBlock.translate` ends with
`if reader.eof(): self.error('missing closing delimiter', self.start)`
— `AbstractBlock.error` (line 1804) forwards with the default
`halt=False` — else it discards the closing delimiter line.  In the
`asciidoc` driver only a raised exception reaches the handler that
unlinks the partial output file and exits 1; a completed run keeps the
output and `main` exits 1 when `document.has_errors` is set (line 4929).
The model: `Except` carries a raised exception, `DocSt` the document
error flag, and `asciidocRun` maps a run result to whether the output
file was deleted and the exit code. -/

structure DocSt where
  has_errors : Bool

def errorFn (halt : Bool) (msg : List Char) (st : DocSt) :
    Except (List Char) DocSt :=
  if halt then Except.error msg
  else Except.ok { st with has_errors := true }

def missingDelimMsg : List Char :=
  ['m', 'i', 's', 's', 'i', 'n', 'g', ' ', 'c', 'l', 'o', 's', 'i', 'n',
   'g', ' ', 'd', 'e', 'l', 'i', 'm', 'i', 't', 'e', 'r']

/-- The closing step of `DelimitedBlock.translate` (lines 2456-2460):
at end of input report `missing closing delimiter` with the default
`halt=False`; otherwise the delimiter line is discarded and the state is
unchanged. -/
def delimitedBlockClose (eof : Bool) (st : DocSt) :
    Except (List Char) DocSt :=
  if eof then errorFn false missingDelimMsg st
  else Except.ok st

structure RunOutcome where
  outputDeleted : Bool
  exitCode : Nat

/-- The `asciidoc` driver and `main` exit protocol: a raised exception
is caught, the partial output file is unlinked and the exit code is 1
(lines 4759-4774); a completed run keeps the output file and exits 1
exactly when `document.has_errors` was set (line 4929). -/
def asciidocRun (r : Except (List Char) DocSt) : RunOutcome :=
  match r with
  | Except.error _ => ⟨true, 1⟩
  | Except.ok st => ⟨false, if st.has_errors then 1 else 0⟩

/-- C7 counterexample: a run whose only failure is a missing closing
delimiter completes with the output file kept (not deleted) and exit
code 1 — the translation is not aborted. -/
theorem missing_delimiter_not_deleted_cex :
    delimitedBlockClose true ⟨false⟩ = Except.ok ⟨true⟩ ∧
    asciidocRun (delimitedBlockClose true ⟨false⟩) = ⟨false, 1⟩ ∧
    (asciidocRun (delimitedBlockClose true ⟨false⟩)).outputDeleted ≠ true := by
  refine ⟨rfl, rfl, ?_⟩
  intro h
  simp [delimitedBlockClose, errorFn, asciidocRun] at h

/-- C7 (amended): a missing closing delimiter is reported through
`error(..., halt=False)`: no exception is raised, translation continues,
the run sets `document.has_errors` so the process exits 1, and the
partial output file is kept.  Only a halting error (a raised
`EAsciiDoc`, e.g. a missing `endif`) reaches the driver's exception
handler, which deletes the partial output and exits 1. -/
theorem missing_delimiter_nonfatal :
    (∀ st : DocSt,
      delimitedBlockClose true st = Except.ok { st with has_errors := true } ∧
      asciidocRun (delimitedBlockClose true st) = ⟨false, 1⟩) ∧
    (∀ st : DocSt, delimitedBlockClose false st = Except.ok st) ∧
    (∀ (msg : List Char) (st : DocSt),
      errorFn true msg st = Except.error msg ∧
      asciidocRun (errorFn true msg st) = ⟨true, 1⟩) := by
  refine ⟨fun st => ⟨rfl, ?_⟩, fun st => rfl, fun msg st => ⟨rfl, rfl⟩⟩
  simp [delimitedBlockClose, errorFn, asciidocRun]
